import Mathlib

/-!
Verification of the image-upload plugin's file-intake pipeline.

This development shallowly embeds the core logic of the plugin:

* `src/src/cache.ts` — the shared Cloudinary cache store (`CloudinaryCache`):
  read with legacy migration, `getEntry`, `addEntry`.
* `src/src/file-handler.ts` — the intake pipeline: `processFileCreate` with
  its guards, `handleUpload`, `handleLocalCopy`, `sanitizeFolderPath`,
  `replaceImageReference`, `markPluginCreatedPath`.
* `src/unnamed/part_008` — an earlier revision of the same handler that
  contains the bounded-concurrency upload gate
  (`concurrentUploads` / `MAX_CONCURRENT_UPLOADS`).

External effects (vault I/O, the network uploader, the SHA-1 digest, timers)
are passed in as explicit parameters, and the event-emitting parts of the
pipeline produce an explicit event trace.  JavaScript strings are modelled by
`String` / `List Char`; JavaScript string truthiness is the test against `""`.
-/

set_option maxRecDepth 10000

namespace ImgUpload

/-! ## Generic list utilities (substring search over `List Char`) -/

/-- `startsWith pat l` holds when `pat` is an initial segment of `l`
(the Lean counterpart of matching a literal at the current position). -/
def startsWith : List Char → List Char → Bool
  | [], _ => true
  | _ :: _, [] => false
  | p :: ps, c :: cs => p = c && startsWith ps cs

/-- `containsSub pat l` holds when `pat` occurs contiguously somewhere in `l`
(the counterpart of JavaScript `String.prototype.includes`). -/
def containsSub (pat : List Char) : List Char → Bool
  | [] => startsWith pat []
  | c :: cs => startsWith pat (c :: cs) || containsSub pat cs

theorem startsWith_nil (l : List Char) : startsWith [] l = true := by
  cases l <;> rfl

theorem containsSub_of_startsWith {pat l : List Char} (h : startsWith pat l = true) :
    containsSub pat l = true := by
  cases l with
  | nil => simpa [containsSub] using h
  | cons c cs => simp [containsSub, h]

theorem containsSub_cons {pat cs : List Char} (c : Char) (h : containsSub pat cs = true) :
    containsSub pat (c :: cs) = true := by
  simp [containsSub, h]

theorem containsSub_append_right {pat l2 : List Char} (l1 : List Char)
    (h : containsSub pat l2 = true) : containsSub pat (l1 ++ l2) = true := by
  induction l1 with
  | nil => simpa using h
  | cons c cs ih => exact containsSub_cons c ih

theorem startsWith_append_ext {pat l1 : List Char} (l2 : List Char)
    (h : startsWith pat l1 = true) : startsWith pat (l1 ++ l2) = true := by
  induction pat generalizing l1 with
  | nil => exact startsWith_nil _
  | cons p ps ih =>
    cases l1 with
    | nil => simp [startsWith] at h
    | cons c cs =>
      simp only [startsWith, Bool.and_eq_true] at h
      simp only [List.cons_append, startsWith, Bool.and_eq_true]
      exact ⟨h.1, ih h.2⟩

theorem containsSub_append_left {pat l1 : List Char} (l2 : List Char)
    (h : containsSub pat l1 = true) : containsSub pat (l1 ++ l2) = true := by
  induction l1 with
  | nil =>
    simp only [containsSub] at h
    exact containsSub_of_startsWith (startsWith_append_ext _ h)
  | cons c cs ih =>
    simp only [containsSub, Bool.or_eq_true] at h
    rcases h with h | h
    · exact containsSub_of_startsWith (startsWith_append_ext _ h)
    · exact containsSub_cons c (ih h)

theorem startsWith_self_append (pat l : List Char) : startsWith pat (pat ++ l) = true := by
  induction pat with
  | nil => exact startsWith_nil _
  | cons p ps ih => simp [startsWith, ih]

theorem containsSub_of_not_head {pat : List Char} {q : Char} (h : pat ≠ [])
    (hq : pat.head h ≠ q) (cs : List Char) :
    containsSub pat (q :: cs) = containsSub pat cs := by
  cases pat with
  | nil => exact absurd rfl h
  | cons p ps =>
    simp only [List.head] at hq
    simp [containsSub, startsWith, hq]

/-- A pattern starting with `x` cannot occur in `xs ++ l` earlier than `l`
when no element of `xs` equals `x`. -/
theorem containsSub_head_append {x : Char} {p xs : List Char}
    (hxs : ∀ c ∈ xs, c ≠ x) (l : List Char) :
    containsSub (x :: p) (xs ++ l) = containsSub (x :: p) l := by
  induction xs with
  | nil => simp
  | cons c cs ih =>
    have hc : c ≠ x := hxs c (by simp)
    have : containsSub (x :: p) ((c :: cs) ++ l) = containsSub (x :: p) (cs ++ l) := by
      refine containsSub_of_not_head (by simp) ?_ _
      simpa using fun h => hc h.symm
    rw [this, ih (fun d hd => hxs d (by simp [hd]))]

theorem takeWhile_append_all {p : Char → Bool} {xs : List Char}
    (h : ∀ c ∈ xs, p c = true) (ys : List Char) :
    (xs ++ ys).takeWhile p = xs ++ ys.takeWhile p := by
  induction xs with
  | nil => simp
  | cons c cs ih =>
    have hc : p c = true := h c (by simp)
    simp [List.takeWhile, hc, ih (fun d hd => h d (by simp [hd]))]

theorem dropWhile_append_all {p : Char → Bool} {xs : List Char}
    (h : ∀ c ∈ xs, p c = true) (ys : List Char) :
    (xs ++ ys).dropWhile p = ys.dropWhile p := by
  induction xs with
  | nil => simp
  | cons c cs ih =>
    have hc : p c = true := h c (by simp)
    simp [List.dropWhile, hc, ih (fun d hd => h d (by simp [hd]))]

/-! ## Association-list maps (JavaScript object keyed by hash strings) -/

/-- First-match lookup in an association list; models `obj[key]` access on a
JSON object. -/
def lookupA {α : Type} (k : String) : List (String × α) → Option α
  | [] => none
  | (k2, v) :: rest => if k2 = k then some v else lookupA k rest

/-- Key update in an association list; models `obj[key] = value`. -/
def setA {α : Type} (k : String) (v : α) : List (String × α) → List (String × α)
  | [] => [(k, v)]
  | (k2, v2) :: rest => if k2 = k then (k, v) :: rest else (k2, v2) :: setA k v rest

theorem lookupA_setA_self {α : Type} (k : String) (v : α) (l : List (String × α)) :
    lookupA k (setA k v l) = some v := by
  induction l with
  | nil => simp [setA, lookupA]
  | cons kv rest ih =>
    obtain ⟨k2, v2⟩ := kv
    by_cases h : k2 = k
    · simp [setA, h, lookupA]
    · simp [setA, h, lookupA, ih]

theorem lookupA_setA_ne {α : Type} {k k2 : String} (h : k2 ≠ k) (v : α)
    (l : List (String × α)) : lookupA k2 (setA k v l) = lookupA k2 l := by
  have hne : k ≠ k2 := fun hh => h hh.symm
  induction l with
  | nil => simp [setA, lookupA, hne]
  | cons kv rest ih =>
    obtain ⟨k3, v3⟩ := kv
    by_cases h3 : k3 = k
    · subst h3
      have hne3 : k3 ≠ k2 := fun hh => h hh.symm
      simp [setA, lookupA, hne3]
    · simp [setA, h3, lookupA, ih]

theorem lookupA_mem {α : Type} {k : String} {v : α} {l : List (String × α)}
    (h : lookupA k l = some v) : (k, v) ∈ l := by
  induction l with
  | nil => simp [lookupA] at h
  | cons kv rest ih =>
    obtain ⟨k2, v2⟩ := kv
    by_cases h2 : k2 = k
    · subst h2
      simp only [lookupA, if_pos] at h
      simp [lookupA] at h
      subst h
      simp
    · simp only [lookupA, if_neg h2] at h
      exact List.mem_cons_of_mem _ (ih h)

theorem lookupA_map_val {α β : Type} (k : String) (f : α → β) (l : List (String × α)) :
    lookupA k (l.map (fun p => (p.1, f p.2))) = (lookupA k l).map f := by
  induction l with
  | nil => simp [lookupA]
  | cons kv rest ih =>
    obtain ⟨k2, v2⟩ := kv
    by_cases h : k2 = k
    · simp [lookupA, h]
    · simp [lookupA, h, ih]

/-! ## Path sanitizer (`sanitizeFolderPath`, `src/src/file-handler.ts:481`) -/

/-- Backslash-to-slash normalization applied character-wise; models
`value.replace(/\\/g, '/')`. -/
def normChar (c : Char) : Char := if c = '\\' then '/' else c

/-- Models `path.replace(/\\/g, '/')`. -/
def normalizePath (s : String) : String := String.mk (s.data.map normChar)

/-- Two consecutive dots occur somewhere; models the `\.\.` alternative of the
sanitizer's rejection regex. -/
def containsDotDot : List Char → Bool
  | [] => false
  | [_] => false
  | a :: b :: rest => (a = '.' && b = '.') || containsDotDot (b :: rest)

/-- Models the `^[A-Za-z]:[/\\]` alternative of the rejection regex. -/
def driveQualified : List Char → Bool
  | a :: b :: s :: _ => a.isAlpha && b = ':' && (s = '/' || s = '\\')
  | _ => false

/-- Models the `^[/\\]` alternative of the rejection regex. -/
def startsWithSep : List Char → Bool
  | c :: _ => c = '/' || c = '\\'
  | [] => false

def isSep (c : Char) : Bool := c = '/' || c = '\\'

/-- Models `normalized.replace(/^[/\\]+|[/\\]+$/g, '')`: strip one leading and
one trailing run of separators. -/
def stripSeps (l : List Char) : List Char :=
  (((l.dropWhile isSep).reverse.dropWhile isSep).reverse)

/-- `sanitizeFolderPath` from `src/src/file-handler.ts`.  `none` models the
thrown `Error('Invalid folder path')`. -/
def sanitizeFolderPath (value : String) : Option String :=
  if value = "" then some "" else
  let normalized := value.data.map normChar
  if containsDotDot normalized || driveQualified normalized || startsWithSep normalized
  then none
  else some (String.mk (stripSeps normalized))

/-- The lenient fallback normalization used by `processFileCreate` when
`sanitizeFolderPath` throws (`src/src/file-handler.ts:146`):
`String(raw).replace(/\\/g, '/').replace(/^\/+|\/+$/g, '')`. -/
def lenientFolderFallback (raw : String) : String :=
  String.mk ((((raw.data.map normChar).dropWhile (fun c => c = '/')).reverse.dropWhile
    (fun c => c = '/')).reverse)

/-! ## Shared cache store (`src/src/cache.ts`) -/

/-- The structured `CacheEntry` interface of `src/src/cache.ts`. -/
structure CacheEntry where
  url : String
  public_id : Option String
  filename : Option String
  uploaded_at : Option String
  uploader : String
deriving DecidableEq

/-- The in-memory cache map `Record<string, CacheEntry>`, as an association
list keyed by content-hash strings. -/
abbrev Cache := List (String × CacheEntry)

/-- A raw entry of the persisted shared-cache JSON: either a legacy bare URL
string or an object whose fields may each be absent/undefined (outer `none`),
null (`some none`) or a string (`some (some v)`).  The `url` field is only
ever tested for truthiness, so absent/undefined/null collapse to `none`. -/
inductive RawEntry where
  | str (url : String)
  | obj (url : Option String) (public_id : Option (Option String))
      (filename : Option (Option String)) (uploaded_at : Option (Option String))
      (uploader : Option (Option String))
deriving DecidableEq

/-- JavaScript truthiness of the raw `url` field (`e.url && ...`). -/
def urlTruthy : Option String → Bool
  | some u => u ≠ ""
  | none => false

/-- `CloudinaryCache.migrateCache` acting on one raw entry.  Returns the
structured entry together with its contribution to `needsWrite`. -/
def migrateRaw (now : String) : RawEntry → CacheEntry × Bool
  | .str s => ({ url := s, public_id := none, filename := none,
                 uploaded_at := some now, uploader := "migrated" }, true)
  | .obj url pid fn upAt upl =>
    if urlTruthy url ∧ (pid = none ∨ fn = none ∨ upAt = none ∨ upl = none) then
      ({ url := url.getD "", public_id := pid.getD none, filename := fn.getD none,
         uploaded_at := some ((upAt.join).getD now),
         uploader := (upl.join).getD "unknown" }, true)
    else
      ({ url := url.getD "", public_id := pid.getD none, filename := fn.getD none,
         uploaded_at := upAt.join, uploader := (upl.join).getD "" }, false)

/-- `CloudinaryCache.migrateCache` on the whole parsed map: the migrated map
plus the map persisted back via `writeCache` when `needsWrite` is set. -/
def migrateCache (now : String) (raw : List (String × RawEntry)) :
    Cache × Option Cache :=
  let m := raw.map (fun p => (p.1, migrateRaw now p.2))
  let entries := m.map (fun p => (p.1, p.2.1))
  (entries, if m.any (fun p => p.2.2) then some entries else none)

/-- The state of the backing cache file as seen by `readCache`. -/
inductive CacheFile where
  | missing
  | malformed
  | parsed (raw : List (String × RawEntry))

/-- `CloudinaryCache.readCache`: empty map when no path is configured, the
file is missing, or `JSON.parse` throws (the `catch` branch); otherwise the
migrated map, with the second component recording the map handed to
`writeCache` by the migration (or `none` when nothing was persisted). -/
def readCache (cachePath : String) (now : String) : CacheFile → Cache × Option Cache
  | .missing => ([], none)
  | .malformed => ([], none)
  | .parsed raw => if cachePath = "" then ([], none) else migrateCache now raw

/-- Re-serialization of a structured entry as it would be parsed back from the
persisted JSON: every field present, `null` for `none`. -/
def entryToRaw (e : CacheEntry) : RawEntry :=
  .obj (some e.url) (some e.public_id) (some e.filename) (some e.uploaded_at)
    (some (some e.uploader))

/-- `CloudinaryCache.getEntry`: read (with migration) then index; `cache[hash]
|| null` — a structured entry is never falsy, so this is plain lookup on the
migrated map. -/
def getEntry (hash : String) (cache : Cache) : Option CacheEntry :=
  lookupA hash cache

/-- `CloudinaryCache.addEntry`: read-modify-write, `cache[hash] = entry`. -/
def addEntry (hash : String) (entry : CacheEntry) (cache : Cache) : Cache :=
  setA hash entry cache

/-- The cache-store operations named by the spec's invariant: `read` (identity
on the in-memory map once migrated), `getEntry` (pure lookup, no change),
`addEntry`, `write` of an arbitrary map, and an explicit cache-clear. -/
inductive CacheOp where
  | opRead
  | opGet (hash : String)
  | opAdd (hash : String) (entry : CacheEntry)
  | opWrite (m : Cache)
  | opClear
deriving DecidableEq

def applyCacheOp (c : Cache) : CacheOp → Cache
  | .opRead => c
  | .opGet _ => c
  | .opAdd h e => addEntry h e c
  | .opWrite m => m
  | .opClear => []

def applyCacheOps (c : Cache) (ops : List CacheOp) : Cache :=
  ops.foldl applyCacheOp c

/-! ## URI encoding (`encodeURI`, `encodeURIComponent`) -/

/-- Uppercase hexadecimal digit. -/
def hexDigit (n : Nat) : Char :=
  if n < 10 then Char.ofNat ('0'.toNat + n) else Char.ofNat ('A'.toNat + n - 10)

/-- UTF-8 byte sequence of a Unicode scalar value. -/
def utf8Bytes (n : Nat) : List Nat :=
  if n < 0x80 then [n]
  else if n < 0x800 then [0xC0 + n / 64, 0x80 + n % 64]
  else if n < 0x10000 then [0xE0 + n / 4096, 0x80 + n / 64 % 64, 0x80 + n % 64]
  else [0xF0 + n / 262144, 0x80 + n / 4096 % 64, 0x80 + n / 64 % 64, 0x80 + n % 64]

def percentByte (b : Nat) : List Char := ['%', hexDigit (b / 16), hexDigit (b % 16)]

/-- Characters `encodeURI` leaves unescaped: alphanumerics, marks, URI
reserved characters and `#`. -/
def uriUnescaped (c : Char) : Bool :=
  c.isAlphanum ||
    (c ∈ ['-', '_', '.', '!', '~', '*', '\'', '(', ')',
          ';', '/', '?', ':', '@', '&', '=', '+', '$', ',', '#'])

/-- Characters `encodeURIComponent` leaves unescaped: alphanumerics and marks
only. -/
def uriComponentUnescaped (c : Char) : Bool :=
  c.isAlphanum || (c ∈ ['-', '_', '.', '!', '~', '*', '\'', '(', ')'])

def encodeWith (unescaped : Char → Bool) (s : List Char) : List Char :=
  (s.map (fun c =>
    if unescaped c then [c] else ((utf8Bytes c.toNat).map percentByte).flatten)).flatten

/-- JavaScript `encodeURI` over a character list. -/
def encodeURI (s : List Char) : List Char := encodeWith uriUnescaped s

/-- JavaScript `encodeURIComponent` over a character list. -/
def encodeURIComponent (s : List Char) : List Char := encodeWith uriComponentUnescaped s

/-! ## Reference rewriter (`replaceImageReference`, `src/src/file-handler.ts:419`)

Each of the ten regexes of `replaceImageReference` is embedded as a
deterministic matcher that attempts a match at the head of the character
list, returning the captured alt group and the remainder after the match.
A global (`g`-flag) `String.replace` is the left-to-right scan `replaceFuel`,
emitting the replacement at every match.  All matchers use the captured group
convention of the source's single replacement callback: the wiki capture
includes its leading `|` (stripped by the callback), and an absent capture is
the empty list. -/

/-- The replacement callback: `` `![${altText}](${replacementUrl})` `` with
`altText = alt ? alt.replace(/^\|/, '') : ''`. -/
def stripBar : List Char → List Char
  | '|' :: rest => rest
  | l => l

def mkReplacement (url alt : List Char) : List Char :=
  '!' :: '[' :: (stripBar alt ++ ']' :: '(' :: (url ++ [')']))

/-- Matcher for `` !\[([^\]]*)\]\(target\) `` at the head of the list. -/
def matchInlineAt (target : List Char) : List Char → Option (List Char × List Char)
  | c1 :: c2 :: rest =>
    if c1 = '!' ∧ c2 = '[' then
      let alt := rest.takeWhile (fun c => c ≠ ']')
      match rest.dropWhile (fun c => c ≠ ']') with
      | d1 :: d2 :: rest3 =>
        if d1 = ']' ∧ d2 = '(' then
          if startsWith target rest3 then
            match rest3.drop target.length with
            | e1 :: rest4 => if e1 = ')' then some (alt, rest4) else none
            | [] => none
          else none
        else none
      | _ => none
    else none
  | _ => none

/-- Matcher for `` !\[([^\]]*)\]\([^)]*name[^)]*\) `` (the loose
filename-anywhere-in-target form) at the head of the list.  The greedy
`[^)]*` runs cannot cross a `)`, so the match extends to the first `)` after
`](` and requires `name` to occur inside that segment; this reading is exact
whenever `name` itself contains no `)` (and whenever `name` does not occur in
the text at all, since any regex match contains `name` literally). -/
def matchLooseAt (name : List Char) : List Char → Option (List Char × List Char)
  | c1 :: c2 :: rest =>
    if c1 = '!' ∧ c2 = '[' then
      let alt := rest.takeWhile (fun c => c ≠ ']')
      match rest.dropWhile (fun c => c ≠ ']') with
      | d1 :: d2 :: rest3 =>
        if d1 = ']' ∧ d2 = '(' then
          let inner := rest3.takeWhile (fun c => c ≠ ')')
          match rest3.dropWhile (fun c => c ≠ ')') with
          | e1 :: rest4 =>
            if e1 = ')' then
              if containsSub name inner then some (alt, rest4) else none
            else none
          | [] => none
        else none
      | _ => none
    else none
  | _ => none

/-- Matcher for `` !\[\[target(\|[^\]]*)?\]\] `` at the head of the list. -/
def matchWikiAt (target : List Char) : List Char → Option (List Char × List Char)
  | c1 :: c2 :: c3 :: rest =>
    if c1 = '!' ∧ c2 = '[' ∧ c3 = '[' then
      if startsWith target rest then
        match rest.drop target.length with
        | d1 :: d2 :: rest4 =>
          if d1 = ']' ∧ d2 = ']' then some ([], rest4)
          else if d1 = '|' then
            let alt := '|' :: (d2 :: rest4).takeWhile (fun c => c ≠ ']')
            match (d2 :: rest4).dropWhile (fun c => c ≠ ']') with
            | e1 :: e2 :: rest5 => if e1 = ']' ∧ e2 = ']' then some (alt, rest5) else none
            | _ => none
          else none
        | _ => none
      else none
    else none
  | _ => none

/-- Left-to-right global replace: at each position, emit the replacement on a
match and continue after it, else emit the character and advance.  Fuel is
the remaining input length; every step consumes at least one character, so
`fuel = l.length` processes all of `l`. -/
def replaceFuel (matchAt : List Char → Option (List Char × List Char))
    (url : List Char) : Nat → List Char → List Char
  | 0, l => l
  | fuel + 1, l =>
    match matchAt l with
    | some (alt, rest) => mkReplacement url alt ++ replaceFuel matchAt url fuel rest
    | none =>
      match l with
      | [] => []
      | c :: cs => c :: replaceFuel matchAt url fuel cs

/-- One `newContent.replace(regex, callback)` pass. -/
def runPass (matchAt : List Char → Option (List Char × List Char))
    (url : List Char) (l : List Char) : List Char :=
  replaceFuel matchAt url l.length l

/-- The ten passes of `replaceImageReference`, in source order: five inline
markdown regexes (`escPath`, `escName`, `encPath`, `encName`, loose
`escName`), then five wiki regexes (`escPath`, `escName`, `escBase`,
`encPath`, `encName`). -/
def replacePasses (path name base url content : List Char) : List Char :=
  let encPath := encodeURI path
  let encName := encodeURI name
  let p1 := runPass (matchInlineAt path) url content
  let p2 := runPass (matchInlineAt name) url p1
  let p3 := runPass (matchInlineAt encPath) url p2
  let p4 := runPass (matchInlineAt encName) url p3
  let p5 := runPass (matchLooseAt name) url p4
  let w1 := runPass (matchWikiAt path) url p5
  let w2 := runPass (matchWikiAt name) url w1
  let w3 := runPass (matchWikiAt base) url w2
  let w4 := runPass (matchWikiAt encPath) url w3
  runPass (matchWikiAt encName) url w4

/-- The identity of the asset being rewritten: `file.path`, `file.name`,
`file.basename` of the `TFile` handed to `replaceImageReference`. -/
structure AssetRef where
  path : String
  name : String
  basename : String

/-- The text-rewriting core of `replaceImageReference`, given the current
document text of an active markdown view whose editor exposes `setValue`:
returns the new text and the changed flag (`newContent !== content`). -/
def replaceImageReference (f : AssetRef) (replacementUrl : String) (content : String) :
    String × Bool :=
  let out := replacePasses f.path.data f.name.data f.basename.data
    replacementUrl.data content.data
  if out = content.data then (content, false) else (String.mk out, true)

/-! ## Upload step (`handleUpload`, `src/src/file-handler.ts:210`) -/

/-- The plugin settings consulted by the pipeline.  String-valued settings
keep their JavaScript type; truthiness is the test against `""`. -/
structure Settings where
  autoUploadOnFileAdd : Bool
  cloudName : String
  uploadPreset : String
  apiKey : String
  apiSecret : String
  allowStoreApiSecret : Bool
  maxAutoUploadSizeMB : Option Nat
  cacheFilePath : String
  localCopyEnabled : Bool
  localCopyFolder : String
  deleteSourceAfterUpload : Bool

/-- Terminal outcome of one `handleUpload` call. -/
inductive UploadOutcome where
  | cacheHit (url : String)
  | skippedConfig
  | skippedSize
  | uploadOk (url : String)
  | uploadFailed
deriving DecidableEq

/-- The `url` field of the returned `UploadResult`. -/
def UploadOutcome.url : UploadOutcome → Option String
  | .cacheHit u => some u
  | .uploadOk u => some u
  | _ => none

/-- Number of invocations of the network upload capability
(`uploader.upload`) this outcome stands for: the capability is invoked
exactly when control reaches the `try` block, whether it succeeds or throws. -/
def uploadCalls : UploadOutcome → Nat
  | .uploadOk _ => 1
  | .uploadFailed => 1
  | _ => 0

/-- `handleUpload` after the shared-cache check missed (or no cache file is
configured): the configuration guard, the size guard, then the upload itself
and the `addEntry` write-back.  `uploaderResult` is the outcome of the
network capability for this attempt (`some url` on success, `none` when it
throws); `uploadedAt` is the ISO timestamp taken at the write-back. -/
def handleUploadMiss (s : Settings) (filename : String) (byteLen : Nat)
    (fileHash : String) (cache : Cache) (uploaderResult : Option String)
    (uploadedAt : String) : UploadOutcome × Cache :=
  let canUnsigned := s.uploadPreset ≠ ""
  let canSigned := s.allowStoreApiSecret ∧ s.apiSecret ≠ "" ∧ s.apiKey ≠ ""
  if ¬ (canUnsigned ∨ canSigned) then (.skippedConfig, cache)
  else
    let maxMB := s.maxAutoUploadSizeMB.getD 0
    if 0 < maxMB ∧ maxMB * 1024 * 1024 < byteLen then (.skippedSize, cache)
    else
      match uploaderResult with
      | some url =>
        (.uploadOk url,
          if s.cacheFilePath ≠ "" then
            addEntry fileHash
              { url := url, public_id := none, filename := some filename,
                uploaded_at := some uploadedAt, uploader := "obsidian-plugin" } cache
          else cache)
      | none => (.uploadFailed, cache)

/-- `handleUpload` (`src/src/file-handler.ts:210`): check the shared cache
first when a cache file is configured, then fall through to the
configuration/size guards and the upload. -/
def handleUpload (s : Settings) (filename : String) (byteLen : Nat)
    (fileHash : String) (cache : Cache) (uploaderResult : Option String)
    (uploadedAt : String) : UploadOutcome × Cache :=
  if s.cacheFilePath ≠ "" then
    match getEntry fileHash cache with
    | some e => (.cacheHit e.url, cache)
    | none => handleUploadMiss s filename byteLen fileHash cache uploaderResult uploadedAt
  else handleUploadMiss s filename byteLen fileHash cache uploaderResult uploadedAt

/-! ## Intake pipeline (`processFileCreate`, `src/src/file-handler.ts:42`) -/

/-- Identity of the newly created file, as read off the `TFile`. -/
structure FileInfo where
  path : String
  name : String
  basename : String
  extension : String
  ctime : Nat

/-- `IMAGE_EXTENSIONS` of `src/src/file-handler.ts`. -/
def IMAGE_EXTENSIONS : List String := ["png", "jpg", "jpeg", "gif", "webp", "svg"]

/-- Character-wise lowercasing (`ext.toLowerCase()`); equivalent to
`String.toLower`, stated over the character list so it evaluates in the
kernel. -/
def toLowerStr (s : String) : String := String.mk (s.data.map Char.toLower)

/-- The admission filter: a present, recognized image extension. -/
def isImageExtension (ext : String) : Bool :=
  ext ≠ "" && IMAGE_EXTENSIONS.contains (toLowerStr ext)

/-- Observable side effects of one intake attempt, in program order. -/
inductive Ev where
  | markCreated (path : String)
  | writeBinary (path : String)
  | uploadCall
  | rewriteRef (assetPath : String) (replacement : String)
  | deleteSource (path : String)
deriving DecidableEq

/-- Why (or whether) the attempt short-circuited. -/
inductive IntakeOutcome where
  | skippedNotImage
  | skippedOld
  | skippedPluginCreated
  | skippedInFlight
  | skippedNotReferenced
  | completed
deriving DecidableEq

/-- The external world consulted by one intake attempt: clock, session guard
sets, the active editor, the file bytes, and the vault/network responses.
Timer-based expiry of the guard sets is not modelled; the sets hold whatever
is live at this attempt. -/
structure IntakeEnv where
  now : Nat
  pluginCreatedFiles : List String
  uploadingPaths : List String
  activeContent : Option String
  bytes : List Nat
  uploaderResult : Option String
  uploadedAt : String
  dupInDest : Option String
  destExists : Bool
  existingIsFile : Bool
  existingHash : String
  timestamp : Nat

/-- The reference check of the bounded reference-wait (step 4 of
`processFileCreate`), against one snapshot of the active editor's text. -/
def isReferenced (content : String) (f : FileInfo) : Bool :=
  containsSub f.path.data content.data ||
  containsSub f.name.data content.data ||
  containsSub ("[[" ++ f.name ++ "]]").data content.data ||
  containsSub ("[[" ++ f.basename ++ "]]").data content.data ||
  containsSub ('(' :: (encodeURIComponent f.path.data ++ [')'])) content.data ||
  containsSub ('(' :: (encodeURIComponent f.name.data ++ [')'])) content.data ||
  containsSub ("![[" ++ f.name ++ "]]").data content.data ||
  containsSub ("![[" ++ f.basename ++ "]]").data content.data

/-- First-occurrence string replacement, as JavaScript
`str.replace(pat, repl)` with a plain-string pattern. -/
def replaceFirst (pat repl l : List Char) : List Char :=
  match l with
  | [] => []
  | c :: cs =>
    if startsWith pat (c :: cs) then repl ++ (c :: cs).drop pat.length
    else c :: replaceFirst pat repl cs

/-- `handleLocalCopy` (`src/src/file-handler.ts:300`).  Returns the path of
the local copy (or `none` when the copy was not made) together with its event
trace.  The whole body runs in a `try` whose `catch` returns `undefined`, so
a sanitizer failure on `settings.localCopyFolder` yields `(none, [])`. -/
def handleLocalCopy (hashFn : List Nat → String) (s : Settings) (f : FileInfo)
    (env : IntakeEnv) : Option String × List Ev :=
  match sanitizeFolderPath s.localCopyFolder with
  | none => (none, [])
  | some folder =>
    let destPath := if folder = "" then f.name else folder ++ "/" ++ f.name
    let normalizedDest := normalizePath destPath
    if env.destExists then
      if env.existingIsFile ∧ env.existingHash = hashFn env.bytes then
        (some normalizedDest, [])
      else
        let finalPath := String.mk (replaceFirst ("." ++ f.extension).data
          ("-" ++ toString env.timestamp ++ "." ++ f.extension).data normalizedDest.data)
        (some finalPath, [.markCreated finalPath, .writeBinary finalPath])
    else
      (some normalizedDest, [.markCreated normalizedDest, .writeBinary normalizedDest])

/-- Step 6 of `processFileCreate`: the local-copy decision — fall back to the
lenient normalization when the sanitizer throws, suppress the copy when an
identical-content file already sits in the destination folder or the file
already lives there, otherwise run `handleLocalCopy`. -/
def localCopyStep (hashFn : List Nat → String) (s : Settings) (f : FileInfo)
    (env : IntakeEnv) : Option String × List Ev :=
  if s.localCopyEnabled ∧ s.localCopyFolder ≠ "" then
    let folder :=
      match sanitizeFolderPath s.localCopyFolder with
      | some fo => fo
      | none => lenientFolderFallback s.localCopyFolder
    if folder ≠ "" then
      match env.dupInDest with
      | some dup => (some dup, [])
      | none =>
        if ¬ startsWith (folder ++ "/").data (normalizePath f.path).data then
          handleLocalCopy hashFn s f env
        else (none, [])
    else (none, [])
  else (none, [])

/-- Steps 5–9 of `processFileCreate` (everything after the guards and the
reference-wait succeeded): upload decision, local-copy decision, reference
replacement, optional source deletion. -/
def intakeBody (hashFn : List Nat → String) (s : Settings) (f : FileInfo)
    (env : IntakeEnv) (cache : Cache) :
    IntakeOutcome × List Ev × Cache × Option String × Option String :=
  let fileHash := hashFn env.bytes
  let upl : Option UploadOutcome × Cache :=
    if s.autoUploadOnFileAdd ∧ s.cloudName ≠ "" then
      let r := handleUpload s f.name env.bytes.length fileHash cache
        env.uploaderResult env.uploadedAt
      (some r.1, r.2)
    else (none, cache)
  let uploadOutcome := upl.1
  let cache2 := upl.2
  let uploadEvs : List Ev :=
    match uploadOutcome with
    | some o => List.replicate (uploadCalls o) .uploadCall
    | none => []
  let uploadedUrl := (uploadOutcome.map UploadOutcome.url).join
  let lc := localCopyStep hashFn s f env
  let localFile := lc.1
  let copyEvs := lc.2
  let rewriteEvs : List Ev :=
    match uploadedUrl with
    | some url =>
      .rewriteRef f.path url ::
        (match localFile with
         | some lp => [.rewriteRef lp url]
         | none => [])
    | none =>
      match localFile with
      | some lp => [.rewriteRef f.path lp]
      | none => []
  let deleteEvs : List Ev :=
    if s.deleteSourceAfterUpload ∧ uploadedUrl.isSome then
      let localCopySatisfied := ¬ s.localCopyEnabled ∨ localFile.isSome
      if localCopySatisfied ∧ (localFile.all fun lp => f.path != lp) = true then
        [.deleteSource f.path]
      else []
    else []
  (.completed, uploadEvs ++ copyEvs ++ rewriteEvs ++ deleteEvs, cache2, uploadedUrl, localFile)

/-- `processFileCreate` (`src/src/file-handler.ts:42`): the guards in source
order — admission filter, startup-age guard, loop guard against
`pluginCreatedFiles`, re-entrancy guard, bounded reference-wait — then the
main body.  The reference-wait's up-to-thirty polls of the active editor are
modelled against one snapshot of its content (`env.activeContent`; `none`
when no markdown view with an editor is active). -/
def processFileCreate (hashFn : List Nat → String) (s : Settings) (f : FileInfo)
    (env : IntakeEnv) (cache : Cache) :
    IntakeOutcome × List Ev × Cache × Option String × Option String :=
  if ¬ isImageExtension f.extension then (.skippedNotImage, [], cache, none, none)
  else
    let fileAgeMs := env.now - (if f.ctime = 0 then env.now else f.ctime)
    if 5000 < fileAgeMs then (.skippedOld, [], cache, none, none)
    else
      let normalizedPath := normalizePath f.path
      if env.pluginCreatedFiles.contains normalizedPath then
        (.skippedPluginCreated, [], cache, none, none)
      else if env.uploadingPaths.contains f.path then
        (.skippedInFlight, [], cache, none, none)
      else
        let referenced :=
          match env.activeContent with
          | some content => isReferenced content f
          | none => false
        if referenced = false then (.skippedNotReferenced, [], cache, none, none)
        else intakeBody hashFn s f env cache

/-- `markPluginCreatedPath` (`src/src/file-handler.ts:35`): normalize and add
to the session set (the ten-second expiry timer is outside the model). -/
def markPluginCreatedPath (path : String) (pluginCreatedFiles : List String) :
    List String :=
  normalizePath path :: pluginCreatedFiles

/-- Checks that every `writeBinary p` in the trace is preceded by a
`markCreated p`, given the set of already-marked paths. -/
def writeMarkedBefore (marked : List String) : List Ev → Bool
  | [] => true
  | .markCreated p :: rest => writeMarkedBefore (p :: marked) rest
  | .writeBinary p :: rest => marked.contains p && writeMarkedBefore marked rest
  | _ :: rest => writeMarkedBefore marked rest

/-! ## Bounded-concurrency upload gate (`src/unnamed/part_008:210-220,345-349`)

That revision of `processFileCreate` guards the network upload with

```
while (concurrentUploads >= MAX_CONCURRENT_UPLOADS) { await sleep(200); }
concurrentUploads++;
try { ... await uploader.upload(...) ... } finally { concurrentUploads--; }
```

Under JavaScript's single-threaded cooperative scheduling, tasks interleave
only at `await` points, so the final check of the `while` condition and the
increment form one atomic step.  Each intake attempt is a task stepping
through three phases; the transition relation below has exactly the atomic
steps of that code: re-testing the gate while full (no state change), passing
the gate (check-and-increment), and finishing the upload (the `finally`
decrement). -/

def MAX_CONCURRENT_UPLOADS : Nat := 3

inductive UploadPhase where
  | beforeGate
  | uploading
  | done
deriving DecidableEq

structure GateState where
  concurrentUploads : Nat
  tasks : List UploadPhase
deriving DecidableEq

/-- Number of tasks whose upload is in flight. -/
def inFlight (tasks : List UploadPhase) : Nat :=
  tasks.countP (fun t => t = .uploading)

inductive GateStep : GateState → GateState → Prop
  | wait (pre post : List UploadPhase) (c : Nat) (h : MAX_CONCURRENT_UPLOADS ≤ c) :
      GateStep ⟨c, pre ++ .beforeGate :: post⟩ ⟨c, pre ++ .beforeGate :: post⟩
  | pass (pre post : List UploadPhase) (c : Nat) (h : c < MAX_CONCURRENT_UPLOADS) :
      GateStep ⟨c, pre ++ .beforeGate :: post⟩ ⟨c + 1, pre ++ .uploading :: post⟩
  | finish (pre post : List UploadPhase) (c : Nat) :
      GateStep ⟨c, pre ++ .uploading :: post⟩ ⟨c - 1, pre ++ .done :: post⟩

/-- Initial state: `concurrentUploads = 0`, `n` intake attempts all waiting
at the gate. -/
def gateInit (n : Nat) : GateState := ⟨0, List.replicate n .beforeGate⟩

/-- The inductive invariant: the counter tracks the number of in-flight
uploads, which never exceeds the ceiling. -/
def gateInv (st : GateState) : Prop :=
  st.concurrentUploads = inFlight st.tasks ∧ inFlight st.tasks ≤ MAX_CONCURRENT_UPLOADS

theorem inFlight_append (l1 l2 : List UploadPhase) :
    inFlight (l1 ++ l2) = inFlight l1 + inFlight l2 := by
  simp [inFlight, List.countP_append]

theorem inFlight_cons (t : UploadPhase) (l : List UploadPhase) :
    inFlight (t :: l) = inFlight l + (if t = .uploading then 1 else 0) := by
  by_cases h : t = .uploading <;> simp [inFlight, List.countP_cons, h]

theorem inFlight_replicate_beforeGate (n : Nat) :
    inFlight (List.replicate n .beforeGate) = 0 := by
  induction n with
  | zero => rfl
  | succ k ih => simpa [List.replicate_succ, inFlight_cons] using ih

theorem gateInv_init (n : Nat) : gateInv (gateInit n) := by
  constructor <;> simp [gateInit, inFlight_replicate_beforeGate]

theorem gateInv_step {s t : GateState} (hst : GateStep s t) (hs : gateInv s) :
    gateInv t := by
  obtain ⟨hcount, hle⟩ := hs
  cases hst with
  | wait pre post c h => exact ⟨hcount, hle⟩
  | pass pre post c h =>
    simp [gateInv, inFlight_append, inFlight_cons] at hcount hle ⊢
    omega
  | finish pre post c =>
    simp [gateInv, inFlight_append, inFlight_cons] at hcount hle ⊢
    omega

theorem gateInv_reachable {n : Nat} {s : GateState}
    (h : Relation.ReflTransGen GateStep (gateInit n) s) : gateInv s := by
  induction h with
  | refl => exact gateInv_init n
  | tail _ hstep ih => exact gateInv_step hstep ih

/-! ## Claim C5 — path sanitization -/

theorem containsDotDot_map_normChar : ∀ {l : List Char}, containsDotDot l = true →
    containsDotDot (l.map normChar) = true
  | [], h => by simp [containsDotDot] at h
  | [_], h => by simp [containsDotDot] at h
  | a :: b :: rest, h => by
    simp only [containsDotDot, Bool.or_eq_true, Bool.and_eq_true,
      decide_eq_true_eq] at h
    rcases h with ⟨ha, hb⟩ | h
    · subst ha hb
      simp [containsDotDot, normChar]
    · have ih := containsDotDot_map_normChar h
      simp only [List.map_cons] at ih ⊢
      simp only [containsDotDot, Bool.or_eq_true]
      exact Or.inr ih

theorem normChar_of_ne_backslash {c : Char} (h : c ≠ '\\') : normChar c = c := by
  simp [normChar, h]

/-- C5: `sanitizeFolderPath` is pure and rejects every input containing a
parent-directory `..` segment, every rooted input, and every drive-qualified
Windows input; accepted inputs are normalized by stripping leading/trailing
separators, so `"assets/images/"` yields `"assets/images"` while
`"../../etc"`, `"/abs/path"` and `"C:\Windows"` all fail. -/
theorem claim_C5_sanitizeFolderPath :
    (∀ v : String, v ≠ "" → containsDotDot v.data = true → sanitizeFolderPath v = none) ∧
    (∀ (v : String) (rest : List Char), v.data = '/' :: rest →
      sanitizeFolderPath v = none) ∧
    (∀ (v : String) (a sep : Char) (rest : List Char),
      v.data = a :: ':' :: sep :: rest → a.isAlpha = true → (sep = '/' ∨ sep = '\\') →
      sanitizeFolderPath v = none) ∧
    sanitizeFolderPath "assets/images/" = some "assets/images" ∧
    sanitizeFolderPath "../../etc" = none ∧
    sanitizeFolderPath "/abs/path" = none ∧
    sanitizeFolderPath "C:\\Windows" = none := by
  refine ⟨?_, ?_, ?_, by decide, by decide, by decide, by decide⟩
  · intro v hv hdd
    simp only [sanitizeFolderPath, if_neg hv]
    simp [containsDotDot_map_normChar hdd]
  · intro v rest hdata
    have hne : v ≠ "" := by
      intro h
      rw [h] at hdata
      exact List.noConfusion hdata
    simp only [sanitizeFolderPath, if_neg hne, hdata]
    simp [startsWithSep, normChar]
  · intro v a sep rest hdata ha hsep
    have hne : v ≠ "" := by
      intro h
      rw [h] at hdata
      exact List.noConfusion hdata
    have hna : normChar a = a := by
      refine normChar_of_ne_backslash ?_
      intro h
      rw [h] at ha
      exact absurd ha (by decide)
    have hns : normChar sep = '/' := by
      rcases hsep with h | h <;> subst h <;> decide
    simp only [sanitizeFolderPath, if_neg hne, hdata, List.map_cons]
    rw [hna, hns]
    simp [driveQualified, normChar, ha]

/-- Closed instances of C5's universally quantified parts. -/
theorem claim_C5_sanitizeFolderPath_witness :
    sanitizeFolderPath "a..b" = none ∧ sanitizeFolderPath "/rooted" = none ∧
    sanitizeFolderPath "D:\\stuff" = none :=
  ⟨claim_C5_sanitizeFolderPath.1 "a..b" (by decide) (by decide),
   claim_C5_sanitizeFolderPath.2.1 "/rooted" "rooted".data (by decide),
   claim_C5_sanitizeFolderPath.2.2.1 "D:\\stuff" 'D' '\\' "stuff".data (by decide)
     (by decide) (Or.inr rfl)⟩

/-! ## Claim C3 — bounded upload concurrency -/

/-- C3: in every state reachable from an initial state with any number of
intake attempts, at most `MAX_CONCURRENT_UPLOADS = 3` uploads are in flight;
and the only step that puts an additional upload in flight is the atomic
gate-pass, which requires the counter to be below the ceiling (attempts
otherwise keep re-polling via `wait`, with no ordering guarantee). -/
theorem claim_C3_upload_concurrency_ceiling :
    (∀ (n : Nat) (s : GateState), Relation.ReflTransGen GateStep (gateInit n) s →
      inFlight s.tasks ≤ MAX_CONCURRENT_UPLOADS) ∧
    (∀ s t : GateState, GateStep s t → inFlight s.tasks < inFlight t.tasks →
      s.concurrentUploads < MAX_CONCURRENT_UPLOADS) := by
  constructor
  · intro n s h
    exact (gateInv_reachable h).2
  · intro s t hst hlt
    cases hst with
    | wait pre post c h => exact absurd hlt (lt_irrefl _)
    | pass pre post c h => exact h
    | finish pre post c =>
      exfalso
      simp [inFlight_append, inFlight_cons] at hlt

/-- Closed instance of C3: a two-step schedule of three attempts stays at or
below the ceiling, and the concrete gate-pass happened below the ceiling. -/
theorem claim_C3_upload_concurrency_ceiling_witness :
    inFlight (GateState.tasks ⟨1, [.uploading, .beforeGate, .beforeGate]⟩) ≤
      MAX_CONCURRENT_UPLOADS ∧
    GateState.concurrentUploads ⟨0, [.beforeGate, .beforeGate, .beforeGate]⟩ <
      MAX_CONCURRENT_UPLOADS :=
  ⟨claim_C3_upload_concurrency_ceiling.1 3 ⟨1, [.uploading, .beforeGate, .beforeGate]⟩
      (Relation.ReflTransGen.single (GateStep.pass [] [.beforeGate, .beforeGate] 0
        (by decide))),
   claim_C3_upload_concurrency_ceiling.2 ⟨0, [.beforeGate, .beforeGate, .beforeGate]⟩
      ⟨1, [.uploading, .beforeGate, .beforeGate]⟩
      (GateStep.pass [] [.beforeGate, .beforeGate] 0 (by decide)) (by decide)⟩

/-! ## Claim C8 — legacy cache migration and robust reads -/

theorem migrateRaw_entryToRaw (now : String) (e : CacheEntry) :
    migrateRaw now (entryToRaw e) = (e, false) := by
  cases e
  simp [migrateRaw, entryToRaw]

theorem migrate_roundtrip_map (now : String) : ∀ entries : Cache,
    (entries.map (fun p => (p.1, entryToRaw p.2))).map
      (fun p => (p.1, migrateRaw now p.2)) = entries.map (fun p => (p.1, (p.2, false)))
  | [] => rfl
  | (k, e) :: rest => by
    simp only [List.map_cons, migrateRaw_entryToRaw]
    rw [migrate_roundtrip_map now rest]

theorem fst_of_false_map : ∀ entries : Cache,
    (entries.map (fun p => (p.1, (p.2, false)))).map (fun p => (p.1, p.2.1)) = entries
  | [] => rfl
  | (k, e) :: rest => by
    simp only [List.map_cons]
    rw [fst_of_false_map rest]

theorem any_of_false_map : ∀ entries : Cache,
    (entries.map (fun p => (p.1, (p.2, false)))).any (fun p => p.2.2) = false
  | [] => rfl
  | (k, e) :: rest => by
    simp [any_of_false_map rest]

theorem migrateCache_entries (now : String) (raw : List (String × RawEntry)) :
    (migrateCache now raw).1 = raw.map (fun p => (p.1, (migrateRaw now p.2).1)) := by
  simp [migrateCache, List.map_map, Function.comp]

theorem migrate_roundtrip (now : String) (entries : Cache) :
    migrateCache now (entries.map (fun p => (p.1, entryToRaw p.2))) = (entries, none) := by
  simp only [migrateCache, migrate_roundtrip_map, fst_of_false_map, any_of_false_map]
  simp

/-- C8: a cache file holding a bare URL string for some hash reads back as a
structured entry with that url and uploader `"migrated"`, and the migrated
map is persisted immediately, so a subsequent read of the persisted form
returns the same structured map without rewriting; a missing or malformed
cache file reads as the empty map (the `catch` branch, never a thrown
error). -/
theorem claim_C8_legacy_cache_migration :
    (∀ (cachePath now : String) (raw : List (String × RawEntry)) (h u : String),
      cachePath ≠ "" →
      lookupA h raw = some (.str u) →
      lookupA h (readCache cachePath now (.parsed raw)).1 =
        some { url := u, public_id := none, filename := none,
               uploaded_at := some now, uploader := "migrated" } ∧
      (readCache cachePath now (.parsed raw)).2 =
        some (readCache cachePath now (.parsed raw)).1 ∧
      readCache cachePath now
          (.parsed ((readCache cachePath now (.parsed raw)).1.map
            (fun p => (p.1, entryToRaw p.2)))) =
        ((readCache cachePath now (.parsed raw)).1, none)) ∧
    (∀ cachePath now : String,
      readCache cachePath now .missing = ([], none) ∧
      readCache cachePath now .malformed = ([], none)) := by
  constructor
  · intro cachePath now raw h u hcp hlook
    simp only [readCache, if_neg hcp]
    have hmem : (h, RawEntry.str u) ∈ raw := lookupA_mem hlook
    have hany : (raw.map (fun p => (p.1, migrateRaw now p.2))).any (fun p => p.2.2)
        = true := by
      refine List.any_eq_true.mpr ?_
      refine ⟨(h, migrateRaw now (.str u)), List.mem_map.mpr ⟨(h, .str u), hmem, rfl⟩, ?_⟩
      simp [migrateRaw]
    refine ⟨?_, ?_, ?_⟩
    · rw [migrateCache_entries]
      rw [lookupA_map_val h (fun r => (migrateRaw now r).1) raw, hlook]
      simp [migrateRaw]
    · simp [migrateCache, hany]
    · exact migrate_roundtrip now _
  · intro cachePath now
    exact ⟨rfl, rfl⟩

/-- Closed instance of C8 at the spec's example `{"h1": "https://old/x.png"}`. -/
theorem claim_C8_legacy_cache_migration_witness :
    lookupA "h1" (readCache "cloudinary-cache.json" "2026-10-11"
        (.parsed [("h1", .str "https://old/x.png")])).1 =
      some { url := "https://old/x.png", public_id := none, filename := none,
             uploaded_at := some "2026-10-11", uploader := "migrated" } :=
  (claim_C8_legacy_cache_migration.1 "cloudinary-cache.json" "2026-10-11"
    [("h1", .str "https://old/x.png")] "h1" "https://old/x.png"
    (by decide) (by decide)).1

/-! ## Claim C9 — cache entries and overwrites -/

/-- The spec's invariant exactly as claimed: over every sequence of
read/getEntry/addEntry/write operations that contains no explicit
cache-clear, an entry present for a hash keeps its `url`. -/
def cacheNeverSilentlyOverwritten : Prop :=
  ∀ (c : Cache) (ops : List CacheOp) (h : String) (e e2 : CacheEntry),
    (∀ op ∈ ops, op ≠ CacheOp.opClear) →
    lookupA h c = some e →
    lookupA h (applyCacheOps c ops) = some e2 →
    e2.url = e.url

def cexEntryFirst : CacheEntry :=
  { url := "https://first/a.png", public_id := none, filename := some "a.png",
    uploaded_at := some "t1", uploader := "obsidian-plugin" }

def cexEntrySecond : CacheEntry :=
  { url := "https://second/b.png", public_id := none, filename := some "b.png",
    uploaded_at := some "t2", uploader := "other-tool" }

/-- C9 as stated is false: `addEntry` is an unconditional last-writer-wins
assignment (`cache[hash] = entry`), so a single `addEntry` — not a clear —
replaces the stored entry for `"h"` with one carrying a different url. -/
theorem claim_C9_counterexample : ¬ cacheNeverSilentlyOverwritten := by
  intro hclaim
  have h := hclaim [("h", cexEntryFirst)] [.opAdd "h" cexEntrySecond] "h"
    cexEntryFirst cexEntrySecond (by decide) (by decide) (by decide)
  exact absurd h (by decide)

/-- `handleUploadMiss` either leaves the cache untouched or, only when a
cache file is configured and the upload succeeded, performs exactly one
`addEntry` at the uploaded file's hash. -/
theorem handleUploadMiss_cache_cases (s : Settings) (filename : String) (byteLen : Nat)
    (fileHash : String) (cache : Cache) (up : Option String) (t : String) :
    (handleUploadMiss s filename byteLen fileHash cache up t).2 = cache ∨
    (s.cacheFilePath ≠ "" ∧ ∃ url, up = some url ∧
      (handleUploadMiss s filename byteLen fileHash cache up t).2 =
        addEntry fileHash
          { url := url, public_id := none, filename := some filename,
            uploaded_at := some t, uploader := "obsidian-plugin" } cache) := by
  by_cases hcfg : ¬ (s.uploadPreset ≠ "" ∨
      (s.allowStoreApiSecret ∧ s.apiSecret ≠ "" ∧ s.apiKey ≠ ""))
  · left
    simp [handleUploadMiss, hcfg]
  · by_cases hsz : 0 < s.maxAutoUploadSizeMB.getD 0 ∧
        s.maxAutoUploadSizeMB.getD 0 * 1024 * 1024 < byteLen
    · left
      simp [handleUploadMiss, hcfg, hsz]
    · cases up with
      | none =>
        left
        simp [handleUploadMiss, hcfg, hsz]
      | some url =>
        by_cases hcp : s.cacheFilePath ≠ ""
        · refine Or.inr ⟨hcp, url, rfl, ?_⟩
          simp [handleUploadMiss, hcfg, hsz, hcp]
        · left
          simp [handleUploadMiss, hcfg, hsz, hcp]

/-- C9 amended: the raw store operations `addEntry`/`write` are last-writer-
wins and can replace an entry, but the pipeline's upload step never does:
`handleUpload` writes the cache only for a hash whose lookup missed, so every
entry already present survives any `handleUpload` call unchanged. -/
theorem claim_C9_amended_handleUpload_preserves
    (s : Settings) (filename : String) (byteLen : Nat) (fileHash : String)
    (cache : Cache) (up : Option String) (t : String) (h : String) (e : CacheEntry)
    (hlook : lookupA h cache = some e) :
    lookupA h (handleUpload s filename byteLen fileHash cache up t).2 = some e := by
  unfold handleUpload
  by_cases hcp : s.cacheFilePath ≠ ""
  · simp only [if_pos hcp]
    cases hget : getEntry fileHash cache with
    | some entry => exact hlook
    | none =>
      rcases handleUploadMiss_cache_cases s filename byteLen fileHash cache up t with
        hsame | ⟨_, url, hup, hadd⟩
      · rw [hsame]; exact hlook
      · rw [hadd]
        have hne : h ≠ fileHash := by
          intro hh
          rw [← hh] at hget
          simp only [getEntry] at hget
          rw [hlook] at hget
          exact Option.noConfusion hget
        rw [addEntry, lookupA_setA_ne hne _ cache]
        exact hlook
  · simp only [if_neg hcp]
    rcases handleUploadMiss_cache_cases s filename byteLen fileHash cache up t with
      hsame | ⟨hcp2, _, _, _⟩
    · rw [hsame]; exact hlook
    · exact absurd hcp2 hcp

/-- Closed instance of the amended C9. -/
theorem claim_C9_amended_witness :
    lookupA "h0" (handleUpload
      { autoUploadOnFileAdd := true, cloudName := "demo", uploadPreset := "p",
        apiKey := "", apiSecret := "", allowStoreApiSecret := false,
        maxAutoUploadSizeMB := none, cacheFilePath := "cache.json",
        localCopyEnabled := false, localCopyFolder := "",
        deleteSourceAfterUpload := false }
      "b.png" 10 "h9" [("h0", cexEntryFirst)] (some "https://u/x.png") "t").2 =
      some cexEntryFirst :=
  claim_C9_amended_handleUpload_preserves _ "b.png" 10 "h9" [("h0", cexEntryFirst)]
    (some "https://u/x.png") "t" "h0" cexEntryFirst (by decide)

/-! ## Claim C1 — cache idempotence across two intakes of the same bytes -/

/-- Reduction of `handleUpload` on a configured cache, a cache miss, a
permitting configuration, a passing size check and a successful upload. -/
theorem handleUpload_miss_success (s : Settings) (filename : String) (byteLen : Nat)
    (fileHash : String) (cache : Cache) (u t : String)
    (hcp : s.cacheFilePath ≠ "")
    (hcfg : s.uploadPreset ≠ "" ∨ (s.allowStoreApiSecret ∧ s.apiSecret ≠ "" ∧ s.apiKey ≠ ""))
    (hsz : ¬ (0 < s.maxAutoUploadSizeMB.getD 0 ∧
      s.maxAutoUploadSizeMB.getD 0 * 1024 * 1024 < byteLen))
    (hmiss : lookupA fileHash cache = none) :
    handleUpload s filename byteLen fileHash cache (some u) t =
      (.uploadOk u,
        addEntry fileHash
          { url := u, public_id := none, filename := some filename,
            uploaded_at := some t, uploader := "obsidian-plugin" } cache) := by
  have hget : getEntry fileHash cache = none := hmiss
  simp only [handleUpload, if_pos hcp, hget]
  simp [handleUploadMiss, hcfg, hsz, hcp]

/-- Reduction of `handleUpload` on a configured cache and a cache hit: the
entry's url is returned and the uploader is not invoked. -/
theorem handleUpload_hit (s : Settings) (filename : String) (byteLen : Nat)
    (fileHash : String) (cache : Cache) (e : CacheEntry) (up : Option String) (t : String)
    (hcp : s.cacheFilePath ≠ "")
    (hhit : lookupA fileHash cache = some e) :
    handleUpload s filename byteLen fileHash cache up t = (.cacheHit e.url, cache) := by
  have hget : getEntry fileHash cache = some e := hhit
  simp only [handleUpload, if_pos hcp, hget]

/-- C1: with a shared cache file configured, intaking the same byte content
twice — possibly under different filenames — makes the first upload step
upload and record the hash, while the second upload step finds the cache
entry under the content hash and returns its url without invoking the
uploader; exactly one network upload call occurs across the two intakes. -/
theorem claim_C1_cache_idempotence
    (s : Settings) (hashFn : List Nat → String) (bytes : List Nat)
    (name1 name2 : String) (cache0 : Cache) (u t1 t2 : String) (up2 : Option String)
    (hcp : s.cacheFilePath ≠ "")
    (hcfg : s.uploadPreset ≠ "" ∨ (s.allowStoreApiSecret ∧ s.apiSecret ≠ "" ∧ s.apiKey ≠ ""))
    (hsz : ¬ (0 < s.maxAutoUploadSizeMB.getD 0 ∧
      s.maxAutoUploadSizeMB.getD 0 * 1024 * 1024 < bytes.length))
    (hmiss : lookupA (hashFn bytes) cache0 = none) :
    (handleUpload s name1 bytes.length (hashFn bytes) cache0 (some u) t1).1 =
        .uploadOk u ∧
    (handleUpload s name2 bytes.length (hashFn bytes)
        (handleUpload s name1 bytes.length (hashFn bytes) cache0 (some u) t1).2
        up2 t2).1 = .cacheHit u ∧
    uploadCalls (handleUpload s name1 bytes.length (hashFn bytes) cache0 (some u) t1).1 +
      uploadCalls (handleUpload s name2 bytes.length (hashFn bytes)
        (handleUpload s name1 bytes.length (hashFn bytes) cache0 (some u) t1).2
        up2 t2).1 = 1 := by
  have h1 := handleUpload_miss_success s name1 bytes.length (hashFn bytes) cache0 u t1
    hcp hcfg hsz hmiss
  have hhit : lookupA (hashFn bytes)
      (handleUpload s name1 bytes.length (hashFn bytes) cache0 (some u) t1).2 =
      some { url := u, public_id := none, filename := some name1,
             uploaded_at := some t1, uploader := "obsidian-plugin" } := by
    rw [h1]
    exact lookupA_setA_self _ _ _
  have h2 := handleUpload_hit s name2 bytes.length (hashFn bytes)
    (handleUpload s name1 bytes.length (hashFn bytes) cache0 (some u) t1).2
    _ up2 t2 hcp hhit
  refine ⟨by rw [h1], by rw [h2], ?_⟩
  rw [h2, h1]
  rfl

/-- Closed instance of C1. -/
theorem claim_C1_cache_idempotence_witness :
    (handleUpload
      { autoUploadOnFileAdd := true, cloudName := "demo", uploadPreset := "preset",
        apiKey := "", apiSecret := "", allowStoreApiSecret := false,
        maxAutoUploadSizeMB := none, cacheFilePath := "cache.json",
        localCopyEnabled := false, localCopyFolder := "",
        deleteSourceAfterUpload := false }
      "a.png" 3 "hh" [] (some "https://cdn/u.png") "t1").1 = .uploadOk "https://cdn/u.png" :=
  (claim_C1_cache_idempotence
    { autoUploadOnFileAdd := true, cloudName := "demo", uploadPreset := "preset",
      apiKey := "", apiSecret := "", allowStoreApiSecret := false,
      maxAutoUploadSizeMB := none, cacheFilePath := "cache.json",
      localCopyEnabled := false, localCopyFolder := "",
      deleteSourceAfterUpload := false }
    (fun _ => "hh") [1, 2, 3] "a.png" "b.png" [] "https://cdn/u.png" "t1" "t2" none
    (by decide) (Or.inl (by decide)) (by decide) (by decide)).1

/-! ## Claim C10 — the upload size limit -/

/-- C10: with the cache not hitting and upload configuration present, a
`maxAutoUploadSizeMB` that is absent/null (`none`) or `0` disables the size
limit entirely — the uploader is invoked whatever the byte length — and the
skip-with-notification branch is taken exactly when the configured limit is
strictly positive and the byte length strictly exceeds
`limit * 1024 * 1024`. -/
theorem claim_C10_size_limit
    (s : Settings) (filename : String) (byteLen : Nat) (fileHash : String)
    (cache : Cache) (up : Option String) (t : String)
    (hnohit : s.cacheFilePath = "" ∨ lookupA fileHash cache = none)
    (hcfg : s.uploadPreset ≠ "" ∨ (s.allowStoreApiSecret ∧ s.apiSecret ≠ "" ∧ s.apiKey ≠ "")) :
    ((s.maxAutoUploadSizeMB = none ∨ s.maxAutoUploadSizeMB = some 0) →
      uploadCalls (handleUpload s filename byteLen fileHash cache up t).1 = 1) ∧
    ((handleUpload s filename byteLen fileHash cache up t).1 = .skippedSize ↔
      0 < s.maxAutoUploadSizeMB.getD 0 ∧
        s.maxAutoUploadSizeMB.getD 0 * 1024 * 1024 < byteLen) := by
  have hbody : handleUpload s filename byteLen fileHash cache up t =
      handleUploadMiss s filename byteLen fileHash cache up t := by
    rcases hnohit with hcp | hmiss
    · have : ¬ s.cacheFilePath ≠ "" := by simp [hcp]
      simp only [handleUpload, if_neg this]
    · by_cases hcp : s.cacheFilePath ≠ ""
      · have hget : getEntry fileHash cache = none := hmiss
        simp only [handleUpload, if_pos hcp, hget]
      · simp only [handleUpload, if_neg hcp]
  rw [hbody]
  constructor
  · intro hdis
    have hsz : ¬ (0 < s.maxAutoUploadSizeMB.getD 0 ∧
        s.maxAutoUploadSizeMB.getD 0 * 1024 * 1024 < byteLen) := by
      rcases hdis with h | h <;> simp [h]
    cases up with
    | some url => simp [handleUploadMiss, hcfg, hsz, uploadCalls]
    | none => simp [handleUploadMiss, hcfg, hsz, uploadCalls]
  · constructor
    · intro hskip
      by_contra hsz
      cases up with
      | some url =>
        by_cases hcp : s.cacheFilePath ≠ "" <;>
          simp [handleUploadMiss, hcfg, hsz, hcp] at hskip
      | none => simp [handleUploadMiss, hcfg, hsz] at hskip
    · intro hsz
      simp [handleUploadMiss, hcfg, hsz]

/-- Closed instance of C10: size limit disabled at `none`, and a 2 MiB + 1
byte file against a 2 MB limit is skipped. -/
theorem claim_C10_size_limit_witness :
    uploadCalls (handleUpload
      { autoUploadOnFileAdd := true, cloudName := "demo", uploadPreset := "preset",
        apiKey := "", apiSecret := "", allowStoreApiSecret := false,
        maxAutoUploadSizeMB := none, cacheFilePath := "",
        localCopyEnabled := false, localCopyFolder := "",
        deleteSourceAfterUpload := false }
      "a.png" 999999999 "hh" [] (some "https://cdn/u.png") "t").1 = 1 ∧
    (handleUpload
      { autoUploadOnFileAdd := true, cloudName := "demo", uploadPreset := "preset",
        apiKey := "", apiSecret := "", allowStoreApiSecret := false,
        maxAutoUploadSizeMB := some 2, cacheFilePath := "",
        localCopyEnabled := false, localCopyFolder := "",
        deleteSourceAfterUpload := false }
      "a.png" 2097153 "hh" [] (some "https://cdn/u.png") "t").1 = .skippedSize :=
  ⟨(claim_C10_size_limit _ "a.png" 999999999 "hh" [] (some "https://cdn/u.png") "t"
      (Or.inl rfl) (Or.inl (by decide))).1 (Or.inl rfl),
   (claim_C10_size_limit _ "a.png" 2097153 "hh" [] (some "https://cdn/u.png") "t"
      (Or.inl rfl) (Or.inl (by decide))).2.mpr (by decide)⟩

/-! ## Rewriter lemmas: a pass is the identity when its needle is absent -/

theorem replaceFuel_id_of_none (matchAt : List Char → Option (List Char × List Char))
    (url : List Char) : ∀ (fuel : Nat) (l : List Char),
    (∀ s, s <:+ l → matchAt s = none) → replaceFuel matchAt url fuel l = l
  | 0, _, _ => rfl
  | fuel + 1, l, h => by
    have hl : matchAt l = none := h l (List.suffix_refl l)
    cases l with
    | nil => simp [replaceFuel, hl]
    | cons c cs =>
      simp only [replaceFuel, hl]
      rw [replaceFuel_id_of_none matchAt url fuel cs
        (fun s hs => h s (hs.trans (List.suffix_cons c cs)))]

theorem containsSub_of_suffix {needle s l : List Char} (hs : s <:+ l)
    (hc : containsSub needle s = true) : containsSub needle l = true := by
  obtain ⟨l1, rfl⟩ := hs
  exact containsSub_append_right l1 hc

theorem runPass_id_of_sound (matchAt : List Char → Option (List Char × List Char))
    (needle url l : List Char)
    (hsound : ∀ s r, matchAt s = some r → containsSub needle s = true)
    (h : containsSub needle l = false) : runPass matchAt url l = l := by
  refine replaceFuel_id_of_none matchAt url l.length l ?_
  intro s hs
  cases hm : matchAt s with
  | none => rfl
  | some r =>
    exact absurd (containsSub_of_suffix hs (hsound s r hm)) (by simp [h])

theorem matchInlineAt_sound {t l : List Char} {r : List Char × List Char}
    (h : matchInlineAt t l = some r) : containsSub t l = true := by
  match l with
  | [] => simp [matchInlineAt] at h
  | [c] => simp [matchInlineAt] at h
  | c1 :: c2 :: rest =>
    simp only [matchInlineAt] at h
    by_cases h12 : c1 = '!' ∧ c2 = '['
    case neg => rw [if_neg h12] at h; exact Option.noConfusion h
    case pos =>
      rw [if_pos h12] at h
      cases hd : rest.dropWhile (fun c => c ≠ ']') with
      | nil => rw [hd] at h; exact Option.noConfusion h
      | cons d1 ds =>
        cases ds with
        | nil => rw [hd] at h; exact Option.noConfusion h
        | cons d2 rest3 =>
          rw [hd] at h
          dsimp only at h
          by_cases hdd : d1 = ']' ∧ d2 = '('
          case neg => rw [if_neg hdd] at h; exact Option.noConfusion h
          case pos =>
            rw [if_pos hdd] at h
            by_cases hsw : startsWith t rest3 = true
            case neg => rw [if_neg hsw] at h; exact Option.noConfusion h
            case pos =>
              have h4 : containsSub t rest = true := by
                have hsplit : rest = rest.takeWhile (fun c => c ≠ ']') ++
                    (d1 :: d2 :: rest3) := by
                  rw [← hd, List.takeWhile_append_dropWhile]
                rw [hsplit]
                exact containsSub_append_right _ (containsSub_cons _ (containsSub_cons _
                  (containsSub_of_startsWith hsw)))
              exact containsSub_cons _ (containsSub_cons _ h4)

theorem matchLooseAt_sound {t l : List Char} {r : List Char × List Char}
    (h : matchLooseAt t l = some r) : containsSub t l = true := by
  match l with
  | [] => simp [matchLooseAt] at h
  | [c] => simp [matchLooseAt] at h
  | c1 :: c2 :: rest =>
    simp only [matchLooseAt] at h
    by_cases h12 : c1 = '!' ∧ c2 = '['
    case neg => rw [if_neg h12] at h; exact Option.noConfusion h
    case pos =>
      rw [if_pos h12] at h
      cases hd : rest.dropWhile (fun c => c ≠ ']') with
      | nil => rw [hd] at h; exact Option.noConfusion h
      | cons d1 ds =>
        cases ds with
        | nil => rw [hd] at h; exact Option.noConfusion h
        | cons d2 rest3 =>
          rw [hd] at h
          dsimp only at h
          by_cases hdd : d1 = ']' ∧ d2 = '('
          case neg => rw [if_neg hdd] at h; exact Option.noConfusion h
          case pos =>
            rw [if_pos hdd] at h
            cases he : rest3.dropWhile (fun c => c ≠ ')') with
            | nil => rw [he] at h; exact Option.noConfusion h
            | cons e1 rest4 =>
              rw [he] at h
              dsimp only at h
              by_cases he1 : e1 = ')'
              case neg => rw [if_neg he1] at h; exact Option.noConfusion h
              case pos =>
                rw [if_pos he1] at h
                by_cases hin : containsSub t (rest3.takeWhile (fun c => c ≠ ')')) = true
                case neg => rw [if_neg hin] at h; exact Option.noConfusion h
                case pos =>
                  have h3 : containsSub t rest3 = true := by
                    have hsplit : rest3 = rest3.takeWhile (fun c => c ≠ ')') ++
                        rest3.dropWhile (fun c => c ≠ ')') := by
                      rw [List.takeWhile_append_dropWhile]
                    rw [hsplit]
                    exact containsSub_append_left _ hin
                  have h4 : containsSub t rest = true := by
                    have hsplit : rest = rest.takeWhile (fun c => c ≠ ']') ++
                        (d1 :: d2 :: rest3) := by
                      rw [← hd, List.takeWhile_append_dropWhile]
                    rw [hsplit]
                    exact containsSub_append_right _ (containsSub_cons _ (containsSub_cons _ h3))
                  exact containsSub_cons _ (containsSub_cons _ h4)

theorem matchWikiAt_sound {t l : List Char} {r : List Char × List Char}
    (h : matchWikiAt t l = some r) : containsSub t l = true := by
  match l with
  | [] => simp [matchWikiAt] at h
  | [c] => simp [matchWikiAt] at h
  | [c1, c2] => simp [matchWikiAt] at h
  | c1 :: c2 :: c3 :: rest =>
    simp only [matchWikiAt] at h
    by_cases h123 : c1 = '!' ∧ c2 = '[' ∧ c3 = '['
    case neg => rw [if_neg h123] at h; exact Option.noConfusion h
    case pos =>
      rw [if_pos h123] at h
      by_cases hsw : startsWith t rest = true
      case neg => rw [if_neg hsw] at h; exact Option.noConfusion h
      case pos =>
        exact containsSub_cons _ (containsSub_cons _ (containsSub_cons _
          (containsSub_of_startsWith hsw)))

/-! ## Claim C6 — rewrite round-trip and no-occurrence no-op -/

/-- C6: on document text `![photo](notes/image.png)` with the asset at
`notes/image.png` and replacement `https://cdn.example/x.png`, the rewrite
yields `![photo](https://cdn.example/x.png)` and reports a change; and for
any document text containing no occurrence of the asset — by path, filename,
basename, or percent-encoded path/filename — the rewrite reports no change
and returns the text unmodified. -/
theorem claim_C6_reference_rewrite :
    replaceImageReference ⟨"notes/image.png", "image.png", "image"⟩
        "https://cdn.example/x.png" "![photo](notes/image.png)" =
      ("![photo](https://cdn.example/x.png)", true) ∧
    (∀ (f : AssetRef) (url content : String),
      containsSub f.path.data content.data = false →
      containsSub f.name.data content.data = false →
      containsSub f.basename.data content.data = false →
      containsSub (encodeURI f.path.data) content.data = false →
      containsSub (encodeURI f.name.data) content.data = false →
      replaceImageReference f url content = (content, false)) := by
  constructor
  · decide
  · intro f url content hp hn hb hep hen
    have hout : replacePasses f.path.data f.name.data f.basename.data
        url.data content.data = content.data := by
      unfold replacePasses
      dsimp only
      rw [runPass_id_of_sound (matchInlineAt f.path.data) f.path.data url.data
          content.data (fun s r hm => matchInlineAt_sound hm) hp,
        runPass_id_of_sound (matchInlineAt f.name.data) f.name.data url.data
          content.data (fun s r hm => matchInlineAt_sound hm) hn,
        runPass_id_of_sound (matchInlineAt (encodeURI f.path.data)) (encodeURI f.path.data)
          url.data content.data (fun s r hm => matchInlineAt_sound hm) hep,
        runPass_id_of_sound (matchInlineAt (encodeURI f.name.data)) (encodeURI f.name.data)
          url.data content.data (fun s r hm => matchInlineAt_sound hm) hen,
        runPass_id_of_sound (matchLooseAt f.name.data) f.name.data url.data
          content.data (fun s r hm => matchLooseAt_sound hm) hn,
        runPass_id_of_sound (matchWikiAt f.path.data) f.path.data url.data
          content.data (fun s r hm => matchWikiAt_sound hm) hp,
        runPass_id_of_sound (matchWikiAt f.name.data) f.name.data url.data
          content.data (fun s r hm => matchWikiAt_sound hm) hn,
        runPass_id_of_sound (matchWikiAt f.basename.data) f.basename.data url.data
          content.data (fun s r hm => matchWikiAt_sound hm) hb,
        runPass_id_of_sound (matchWikiAt (encodeURI f.path.data)) (encodeURI f.path.data)
          url.data content.data (fun s r hm => matchWikiAt_sound hm) hep,
        runPass_id_of_sound (matchWikiAt (encodeURI f.name.data)) (encodeURI f.name.data)
          url.data content.data (fun s r hm => matchWikiAt_sound hm) hen]
    unfold replaceImageReference
    rw [if_pos hout]

/-- Closed instance of C6's no-occurrence part. -/
theorem claim_C6_reference_rewrite_witness :
    replaceImageReference ⟨"notes/image.png", "image.png", "image"⟩
      "https://cdn.example/x.png" "nothing to see here" = ("nothing to see here", false) :=
  claim_C6_reference_rewrite.2 ⟨"notes/image.png", "image.png", "image"⟩
    "https://cdn.example/x.png" "nothing to see here"
    (by decide) (by decide) (by decide) (by decide) (by decide)

/-! ## Rewriter lemmas: computing single passes on a lone occurrence -/

theorem takeWhile_cons_false {p : Char → Bool} {x : Char} (hx : p x = false)
    (l : List Char) : (x :: l).takeWhile p = [] := by
  simp [List.takeWhile, hx]

theorem dropWhile_cons_false {p : Char → Bool} {x : Char} (hx : p x = false)
    (l : List Char) : (x :: l).dropWhile p = x :: l := by
  simp [List.dropWhile, hx]

theorem takeWhile_ne_alt (alt rest : List Char) (h : ∀ c ∈ alt, c ≠ ']') :
    (alt ++ ']' :: rest).takeWhile (fun c => c ≠ ']') = alt := by
  rw [takeWhile_append_all (fun c hc => decide_eq_true (h c hc))]
  rw [takeWhile_cons_false (by simp)]
  simp

theorem dropWhile_ne_alt (alt rest : List Char) (h : ∀ c ∈ alt, c ≠ ']') :
    (alt ++ ']' :: rest).dropWhile (fun c => c ≠ ']') = ']' :: rest := by
  rw [dropWhile_append_all (fun c hc => decide_eq_true (h c hc))]
  rw [dropWhile_cons_false (by simp)]

theorem replaceFuel_nil (matchAt : List Char → Option (List Char × List Char))
    (url : List Char) (hnil : matchAt [] = none) :
    ∀ fuel, replaceFuel matchAt url fuel [] = []
  | 0 => rfl
  | fuel + 1 => by simp [replaceFuel, hnil]

theorem replaceFuel_cons_none (matchAt : List Char → Option (List Char × List Char))
    (url : List Char) (fuel : Nat) {c : Char} {cs : List Char}
    (h : matchAt (c :: cs) = none) :
    replaceFuel matchAt url (fuel + 1) (c :: cs) =
      c :: replaceFuel matchAt url fuel cs := by
  simp [replaceFuel, h]

/-- A pass whose matcher fires at the head and consumes the whole input emits
exactly the replacement. -/
theorem runPass_head_match_all (matchAt : List Char → Option (List Char × List Char))
    (url : List Char) {c : Char} {cs alt : List Char}
    (hm : matchAt (c :: cs) = some (alt, []))
    (hnil : matchAt [] = none) :
    runPass matchAt url (c :: cs) = mkReplacement url alt := by
  rw [runPass, List.length_cons]
  simp [replaceFuel, hm, replaceFuel_nil matchAt url hnil]

/-- A pass is the identity when its matcher fails at the head and no later
position can start a match (no `!` occurs in the tail). -/
theorem runPass_id_headfail (matchAt : List Char → Option (List Char × List Char))
    (url : List Char) {c : Char} {cs : List Char}
    (hhead : matchAt (c :: cs) = none)
    (hnil : matchAt [] = none)
    (hne : ∀ (d : Char) (ds : List Char), d ≠ '!' → matchAt (d :: ds) = none)
    (hcs : ∀ d ∈ cs, d ≠ '!') :
    runPass matchAt url (c :: cs) = c :: cs := by
  rw [runPass, List.length_cons]
  rw [replaceFuel_cons_none matchAt url cs.length hhead]
  rw [replaceFuel_id_of_none matchAt url cs.length cs ?_]
  intro s hs
  match s with
  | [] => exact hnil
  | d :: ds => exact hne d ds (hcs d (hs.subset (by simp)))

theorem stripBar_of_not_bar {alt : List Char} (h : ∀ r, alt ≠ '|' :: r) :
    stripBar alt = alt := by
  match alt with
  | [] => rfl
  | c :: cs =>
    have hc : c ≠ '|' := fun he => h cs (by rw [he])
    simp [stripBar, hc]

theorem stripBar_eq_or (l : List Char) :
    stripBar l = l ∨ ∃ r, l = '|' :: r ∧ stripBar l = r := by
  cases l with
  | nil => exact Or.inl rfl
  | cons c rest =>
    by_cases hc : c = '|'
    · subst hc
      exact Or.inr ⟨rest, rfl, rfl⟩
    · left
      apply stripBar_of_not_bar
      intro r he
      injection he with h1 h2
      exact hc h1

theorem stripBar_subset {l : List Char} : ∀ c ∈ stripBar l, c ∈ l := by
  intro c hc
  rcases stripBar_eq_or l with h | ⟨r, hl, h⟩
  · rwa [h] at hc
  · rw [h] at hc
    rw [hl]
    exact List.mem_cons_of_mem _ hc

theorem stripBar_length (l : List Char) :
    (stripBar l).length = l.length ∨ (stripBar l).length + 1 = l.length := by
  rcases stripBar_eq_or l with h | ⟨r, hl, h⟩
  · left
    rw [h]
  · right
    rw [h, hl]
    simp

theorem ne_of_length_ne {l1 l2 : List Char} (h : l1.length ≠ l2.length) : l1 ≠ l2 :=
  fun he => h (congrArg List.length he)

/-- Head-`!` requirement of the three matchers. -/
theorem matchInlineAt_ne_bang (t : List Char) {c : Char} (cs : List Char)
    (h : c ≠ '!') : matchInlineAt t (c :: cs) = none := by
  match cs with
  | [] => rfl
  | c2 :: cs2 =>
    simp only [matchInlineAt]
    rw [if_neg (fun hc => h hc.1)]

theorem matchLooseAt_ne_bang (t : List Char) {c : Char} (cs : List Char)
    (h : c ≠ '!') : matchLooseAt t (c :: cs) = none := by
  match cs with
  | [] => rfl
  | c2 :: cs2 =>
    simp only [matchLooseAt]
    rw [if_neg (fun hc => h hc.1)]

theorem matchWikiAt_ne_bang (t : List Char) {c : Char} (cs : List Char)
    (h : c ≠ '!') : matchWikiAt t (c :: cs) = none := by
  match cs with
  | [] => rfl
  | [c2] => rfl
  | c2 :: c3 :: cs3 =>
    simp only [matchWikiAt]
    rw [if_neg (fun hc => h hc.1)]

/-! ## Rewriter lemmas: finer matcher soundness (delimiters of a match) -/

theorem startsWith_append_of {a l : List Char} (b : List Char)
    (h1 : startsWith a l = true) (h2 : startsWith b (l.drop a.length) = true) :
    startsWith (a ++ b) l = true := by
  induction a generalizing l with
  | nil => simpa using h2
  | cons x xs ih =>
    cases l with
    | nil => simp [startsWith] at h1
    | cons c cs =>
      simp only [startsWith, Bool.and_eq_true] at h1
      simp only [List.cons_append, startsWith, Bool.and_eq_true]
      refine ⟨h1.1, ih h1.2 ?_⟩
      simpa using h2

/-- An inline match always contains the two-character delimiter `](`. -/
theorem matchInlineAt_sound_brlp {t l : List Char} {r : List Char × List Char}
    (h : matchInlineAt t l = some r) : containsSub [']', '('] l = true := by
  match l with
  | [] => simp [matchInlineAt] at h
  | [c] => simp [matchInlineAt] at h
  | c1 :: c2 :: rest =>
    simp only [matchInlineAt] at h
    by_cases h12 : c1 = '!' ∧ c2 = '['
    case neg => rw [if_neg h12] at h; exact Option.noConfusion h
    case pos =>
      rw [if_pos h12] at h
      cases hd : rest.dropWhile (fun c => c ≠ ']') with
      | nil => rw [hd] at h; exact Option.noConfusion h
      | cons d1 ds =>
        cases ds with
        | nil => rw [hd] at h; exact Option.noConfusion h
        | cons d2 rest3 =>
          rw [hd] at h
          dsimp only at h
          by_cases hdd : d1 = ']' ∧ d2 = '('
          case neg => rw [if_neg hdd] at h; exact Option.noConfusion h
          case pos =>
            obtain ⟨rfl, rfl⟩ := hdd
            have h4 : containsSub [']', '('] rest = true := by
              have hsplit : rest = rest.takeWhile (fun c => c ≠ ']') ++
                  (']' :: '(' :: rest3) := by
                rw [← hd, List.takeWhile_append_dropWhile]
              rw [hsplit]
              refine containsSub_append_right _ (containsSub_of_startsWith ?_)
              simp [startsWith, startsWith_nil]
            exact containsSub_cons _ (containsSub_cons _ h4)

/-- A loose match always contains the two-character delimiter `](`. -/
theorem matchLooseAt_sound_brlp {t l : List Char} {r : List Char × List Char}
    (h : matchLooseAt t l = some r) : containsSub [']', '('] l = true := by
  match l with
  | [] => simp [matchLooseAt] at h
  | [c] => simp [matchLooseAt] at h
  | c1 :: c2 :: rest =>
    simp only [matchLooseAt] at h
    by_cases h12 : c1 = '!' ∧ c2 = '['
    case neg => rw [if_neg h12] at h; exact Option.noConfusion h
    case pos =>
      rw [if_pos h12] at h
      cases hd : rest.dropWhile (fun c => c ≠ ']') with
      | nil => rw [hd] at h; exact Option.noConfusion h
      | cons d1 ds =>
        cases ds with
        | nil => rw [hd] at h; exact Option.noConfusion h
        | cons d2 rest3 =>
          rw [hd] at h
          dsimp only at h
          by_cases hdd : d1 = ']' ∧ d2 = '('
          case neg => rw [if_neg hdd] at h; exact Option.noConfusion h
          case pos =>
            obtain ⟨rfl, rfl⟩ := hdd
            have h4 : containsSub [']', '('] rest = true := by
              have hsplit : rest = rest.takeWhile (fun c => c ≠ ']') ++
                  (']' :: '(' :: rest3) := by
                rw [← hd, List.takeWhile_append_dropWhile]
              rw [hsplit]
              refine containsSub_append_right _ (containsSub_of_startsWith ?_)
              simp [startsWith, startsWith_nil]
            exact containsSub_cons _ (containsSub_cons _ h4)

/-- An exact inline match contains the full bracketed target `](t)`. -/
theorem matchInlineAt_sound_target {t l : List Char} {r : List Char × List Char}
    (h : matchInlineAt t l = some r) :
    containsSub (']' :: '(' :: (t ++ [')'])) l = true := by
  match l with
  | [] => simp [matchInlineAt] at h
  | [c] => simp [matchInlineAt] at h
  | c1 :: c2 :: rest =>
    simp only [matchInlineAt] at h
    by_cases h12 : c1 = '!' ∧ c2 = '['
    case neg => rw [if_neg h12] at h; exact Option.noConfusion h
    case pos =>
      rw [if_pos h12] at h
      cases hd : rest.dropWhile (fun c => c ≠ ']') with
      | nil => rw [hd] at h; exact Option.noConfusion h
      | cons d1 ds =>
        cases ds with
        | nil => rw [hd] at h; exact Option.noConfusion h
        | cons d2 rest3 =>
          rw [hd] at h
          dsimp only at h
          by_cases hdd : d1 = ']' ∧ d2 = '('
          case neg => rw [if_neg hdd] at h; exact Option.noConfusion h
          case pos =>
            obtain ⟨rfl, rfl⟩ := hdd
            by_cases hsw : startsWith t rest3 = true
            case neg => rw [if_neg hsw] at h; exact Option.noConfusion h
            case pos =>
              rw [if_pos hsw] at h
              cases he : rest3.drop t.length with
              | nil => rw [he] at h; exact Option.noConfusion h
              | cons e1 rest4 =>
                rw [he] at h
                dsimp only at h
                by_cases he1 : e1 = ')'
                case neg => rw [if_neg he1] at h; exact Option.noConfusion h
                case pos =>
                  subst he1
                  have hsw2 : startsWith (t ++ [')']) rest3 = true := by
                    refine startsWith_append_of [')'] hsw ?_
                    rw [he]
                    simp [startsWith, startsWith_nil]
                  have h4 : containsSub (']' :: '(' :: (t ++ [')'])) rest = true := by
                    have hsplit : rest = rest.takeWhile (fun c => c ≠ ']') ++
                        (']' :: '(' :: rest3) := by
                      rw [← hd, List.takeWhile_append_dropWhile]
                    rw [hsplit]
                    refine containsSub_append_right _ (containsSub_of_startsWith ?_)
                    simpa [startsWith] using hsw2
                  exact containsSub_cons _ (containsSub_cons _ h4)

/-- A wiki match always contains the closing delimiter `]]`. -/
theorem matchWikiAt_sound_rbrb {t l : List Char} {r : List Char × List Char}
    (h : matchWikiAt t l = some r) : containsSub [']', ']'] l = true := by
  match l with
  | [] => simp [matchWikiAt] at h
  | [c] => simp [matchWikiAt] at h
  | [c1, c2] => simp [matchWikiAt] at h
  | c1 :: c2 :: c3 :: rest =>
    simp only [matchWikiAt] at h
    by_cases h123 : c1 = '!' ∧ c2 = '[' ∧ c3 = '['
    case neg => rw [if_neg h123] at h; exact Option.noConfusion h
    case pos =>
      rw [if_pos h123] at h
      by_cases hsw : startsWith t rest = true
      case neg => rw [if_neg hsw] at h; exact Option.noConfusion h
      case pos =>
        rw [if_pos hsw] at h
        suffices hrest : containsSub [']', ']'] rest = true by
          exact containsSub_cons _ (containsSub_cons _ (containsSub_cons _ hrest))
        cases hdr : rest.drop t.length with
        | nil => rw [hdr] at h; exact Option.noConfusion h
        | cons d1 ds =>
          have hsplitrest : containsSub [']', ']'] (rest.drop t.length) = true →
              containsSub [']', ']'] rest = true := by
            intro hc
            have : rest = rest.take t.length ++ rest.drop t.length := by
              rw [List.take_append_drop]
            rw [this]
            exact containsSub_append_right _ hc
          cases ds with
          | nil => rw [hdr] at h; dsimp only at h; exact Option.noConfusion h
          | cons d2 rest4 =>
            rw [hdr] at h
            dsimp only at h
            by_cases hdd : d1 = ']' ∧ d2 = ']'
            case pos =>
              obtain ⟨rfl, rfl⟩ := hdd
              refine hsplitrest ?_
              rw [hdr]
              exact containsSub_of_startsWith (by simp [startsWith, startsWith_nil])
            case neg =>
              rw [if_neg hdd] at h
              by_cases hd1 : d1 = '|'
              case neg => rw [if_neg hd1] at h; exact Option.noConfusion h
              case pos =>
                rw [if_pos hd1] at h
                cases he : (d2 :: rest4).dropWhile (fun c => c ≠ ']') with
                | nil => rw [he] at h; exact Option.noConfusion h
                | cons e1 es =>
                  cases es with
                  | nil => rw [he] at h; exact Option.noConfusion h
                  | cons e2 rest5 =>
                    rw [he] at h
                    dsimp only at h
                    by_cases hee : e1 = ']' ∧ e2 = ']'
                    case neg => rw [if_neg hee] at h; exact Option.noConfusion h
                    case pos =>
                      obtain ⟨rfl, rfl⟩ := hee
                      refine hsplitrest ?_
                      rw [hdr]
                      refine containsSub_cons _ ?_
                      have : d2 :: rest4 = (d2 :: rest4).takeWhile (fun c => c ≠ ']') ++
                          (']' :: ']' :: rest5) := by
                        rw [← he, List.takeWhile_append_dropWhile]
                      rw [this]
                      refine containsSub_append_right _ (containsSub_of_startsWith ?_)
                      simp [startsWith, startsWith_nil]

/-! ## Rewriter lemmas: matcher behaviour on a lone wiki / inline occurrence -/

theorem matchInlineAt_none_rbrb (t mid tail : List Char) (hmid : ∀ c ∈ mid, c ≠ ']') :
    matchInlineAt t ('!' :: '[' :: (mid ++ ']' :: ']' :: tail)) = none := by
  simp only [matchInlineAt, and_self, if_true]
  rw [dropWhile_ne_alt mid (']' :: tail) hmid]
  dsimp only
  rw [if_neg (show ¬((']' : Char) = ']' ∧ (']' : Char) = '(') from by decide)]

theorem matchLooseAt_none_rbrb (t mid tail : List Char) (hmid : ∀ c ∈ mid, c ≠ ']') :
    matchLooseAt t ('!' :: '[' :: (mid ++ ']' :: ']' :: tail)) = none := by
  simp only [matchLooseAt, and_self, if_true]
  rw [dropWhile_ne_alt mid (']' :: tail) hmid]
  dsimp only
  rw [if_neg (show ¬((']' : Char) = ']' ∧ (']' : Char) = '(') from by decide)]

theorem matchWikiAt_none_startfail (t rest : List Char)
    (h : startsWith t rest = false) :
    matchWikiAt t ('!' :: '[' :: '[' :: rest) = none := by
  simp only [matchWikiAt, and_self, if_true]
  rw [if_neg (by simp [h])]

/-- The wiki-name matcher on the lone occurrence `![[image.png|alt]]`. -/
theorem matchWikiAt_wiki_occurrence (alt : List Char) (halt : ∀ c ∈ alt, c ≠ ']') :
    matchWikiAt "image.png".data
      ('!' :: '[' :: '[' :: ("image.png|".data ++ (alt ++ [']', ']']))) =
    some ('|' :: alt, []) := by
  cases alt with
  | nil => decide
  | cons a as =>
    have has : ∀ c ∈ a :: as, c ≠ ']' := halt
    have hsplit : ("image.png|".data : List Char) ++ ((a :: as) ++ [']', ']']) =
        "image.png".data ++ ('|' :: (a :: (as ++ [']', ']']))) := by
      rw [show ("image.png|".data : List Char) = "image.png".data ++ ['|'] from by decide]
      simp
    rw [hsplit]
    simp only [matchWikiAt, and_self, if_true]
    rw [if_pos (startsWith_self_append _ _)]
    rw [List.drop_left]
    dsimp only
    rw [if_neg (show ¬(('|' : Char) = ']' ∧ a = ']') from fun hc => absurd hc.1 (by decide))]
    rw [if_pos (show ('|' : Char) = '|' from rfl)]
    have hshape : a :: (as ++ [']', ']']) = (a :: as) ++ ']' :: [']'] := by simp
    rw [hshape, takeWhile_ne_alt (a :: as) [']'] has, dropWhile_ne_alt (a :: as) [']'] has]
    dsimp only
    rw [if_pos (show (']' : Char) = ']' ∧ (']' : Char) = ']' from ⟨rfl, rfl⟩)]

/-- The exact inline matcher on the lone occurrence `![alt](t)tail`. -/
theorem matchInlineAt_occurrence (t alt tail : List Char) (halt : ∀ c ∈ alt, c ≠ ']') :
    matchInlineAt t ('!' :: '[' :: (alt ++ ']' :: '(' :: (t ++ ')' :: tail))) =
      some (alt, tail) := by
  simp only [matchInlineAt, and_self, if_true]
  rw [takeWhile_ne_alt alt ('(' :: (t ++ ')' :: tail)) halt,
    dropWhile_ne_alt alt ('(' :: (t ++ ')' :: tail)) halt]
  dsimp only
  rw [if_pos (show (']' : Char) = ']' ∧ ('(' : Char) = '(' from ⟨rfl, rfl⟩)]
  rw [if_pos (startsWith_self_append _ _)]
  rw [List.drop_left]
  dsimp only
  rw [if_pos (show (')' : Char) = ')' from rfl)]

/-! ## Rewriter lemmas: absence of delimiters around a lone occurrence -/

theorem no_rb_in_P_head (alt : List Char) (hr : ∀ c ∈ alt, c ≠ ']') :
    ∀ c ∈ ('!' :: '[' :: '[' :: ("image.png|".data ++ alt)), c ≠ ']' := by
  intro c hc
  rcases List.mem_cons.mp hc with rfl | hc
  · decide
  rcases List.mem_cons.mp hc with rfl | hc
  · decide
  rcases List.mem_cons.mp hc with rfl | hc
  · decide
  rcases List.mem_append.mp hc with hc | hc
  · exact (by decide : ∀ c ∈ ("image.png|".data : List Char), c ≠ ']') c hc
  · exact hr c hc

/-- The lone wiki occurrence `![[image.png|alt]]` contains no `](`. -/
theorem not_brlp_P (alt : List Char) (hr : ∀ c ∈ alt, c ≠ ']') :
    containsSub [']', '(']
      ('!' :: '[' :: '[' :: ("image.png|".data ++ (alt ++ [']', ']']))) = false := by
  have hshape : '!' :: '[' :: '[' :: ("image.png|".data ++ (alt ++ [']', ']'])) =
      ('!' :: '[' :: '[' :: ("image.png|".data ++ alt)) ++ [']', ']'] := by simp
  rw [hshape, containsSub_head_append (no_rb_in_P_head alt hr)]
  decide

theorem no_rb_in_R_head (alt : List Char) (hr : ∀ c ∈ alt, c ≠ ']') :
    ∀ c ∈ ('!' :: '[' :: alt), c ≠ ']' := by
  intro c hc
  rcases List.mem_cons.mp hc with rfl | hc
  · decide
  rcases List.mem_cons.mp hc with rfl | hc
  · decide
  exact hr c hc

/-- The rewritten occurrence `![alt](url)` contains no `]]`. -/
theorem not_rbrb_R (alt : List Char) (hr : ∀ c ∈ alt, c ≠ ']') :
    containsSub [']', ']']
      ('!' :: '[' :: (alt ++ ']' :: '(' :: ("https://cdn.example/x.png".data ++ [')']))) =
      false := by
  have hshape : '!' :: '[' ::
        (alt ++ ']' :: '(' :: ("https://cdn.example/x.png".data ++ [')'])) =
      ('!' :: '[' :: alt) ++ (']' :: '(' :: ("https://cdn.example/x.png".data ++ [')'])) := by
    simp
  rw [hshape, containsSub_head_append (no_rb_in_R_head alt hr)]
  decide

/-- The rewritten occurrence `![alt](url)` contains no `](image.png)`. -/
theorem not_brlp_R_name (alt : List Char) (hr : ∀ c ∈ alt, c ≠ ']') :
    containsSub (']' :: '(' :: ("image.png".data ++ [')']))
      ('!' :: '[' :: (alt ++ ']' :: '(' :: ("https://cdn.example/x.png".data ++ [')']))) =
      false := by
  have hshape : '!' :: '[' ::
        (alt ++ ']' :: '(' :: ("https://cdn.example/x.png".data ++ [')'])) =
      ('!' :: '[' :: alt) ++ (']' :: '(' :: ("https://cdn.example/x.png".data ++ [')'])) := by
    simp
  rw [hshape, containsSub_head_append (no_rb_in_R_head alt hr)]
  decide

/-- The rewritten occurrence `![alt](url)` contains no `](notes/image.png)`. -/
theorem not_brlp_R_path (alt : List Char) (hr : ∀ c ∈ alt, c ≠ ']') :
    containsSub (']' :: '(' :: ("notes/image.png".data ++ [')']))
      ('!' :: '[' :: (alt ++ ']' :: '(' :: ("https://cdn.example/x.png".data ++ [')']))) =
      false := by
  have hshape : '!' :: '[' ::
        (alt ++ ']' :: '(' :: ("https://cdn.example/x.png".data ++ [')'])) =
      ('!' :: '[' :: alt) ++ (']' :: '(' :: ("https://cdn.example/x.png".data ++ [')'])) := by
    simp
  rw [hshape, containsSub_head_append (no_rb_in_R_head alt hr)]
  decide

theorem no_bang_P_tail (alt : List Char) (hb : ∀ c ∈ alt, c ≠ '!') :
    ∀ c ∈ ('[' :: '[' :: ("image.png|".data ++ (alt ++ [']', ']']))), c ≠ '!' := by
  intro c hc
  rcases List.mem_cons.mp hc with rfl | hc
  · decide
  rcases List.mem_cons.mp hc with rfl | hc
  · decide
  rcases List.mem_append.mp hc with hc | hc
  · exact (by decide : ∀ c ∈ ("image.png|".data : List Char), c ≠ '!') c hc
  rcases List.mem_append.mp hc with hc | hc
  · exact hb c hc
  · exact (by decide : ∀ c ∈ ([']', ']'] : List Char), c ≠ '!') c hc

theorem no_bang_R_tail (alt : List Char) (hb : ∀ c ∈ alt, c ≠ '!') :
    ∀ c ∈ ('[' :: (alt ++ ']' :: '(' :: ("https://cdn.example/x.png".data ++ [')']))),
      c ≠ '!' := by
  intro c hc
  rcases List.mem_cons.mp hc with rfl | hc
  · decide
  rcases List.mem_append.mp hc with hc | hc
  · exact hb c hc
  rcases List.mem_cons.mp hc with rfl | hc
  · decide
  rcases List.mem_cons.mp hc with rfl | hc
  · decide
  rcases List.mem_append.mp hc with hc | hc
  · exact (by decide : ∀ c ∈ ("https://cdn.example/x.png".data : List Char), c ≠ '!') c hc
  · exact (by decide : ∀ c ∈ ([')'] : List Char), c ≠ '!') c hc

/-- The loose matcher fails at the head of the rewritten occurrence
`![alt](url)`: the parenthesized segment is the url, which does not contain
the filename. -/
theorem matchLooseAt_none_R (alt : List Char) (halt : ∀ c ∈ alt, c ≠ ']') :
    matchLooseAt "image.png".data
      ('!' :: '[' :: (alt ++ ']' :: '(' :: ("https://cdn.example/x.png".data ++ [')']))) =
      none := by
  simp only [matchLooseAt, and_self, if_true]
  rw [takeWhile_ne_alt alt ('(' :: ("https://cdn.example/x.png".data ++ [')'])) halt,
    dropWhile_ne_alt alt ('(' :: ("https://cdn.example/x.png".data ++ [')'])) halt]
  dsimp only
  rw [if_pos (show (']' : Char) = ']' ∧ ('(' : Char) = '(' from ⟨rfl, rfl⟩)]
  rw [show (("https://cdn.example/x.png".data ++ [')']).dropWhile (fun c => c ≠ ')')) =
    [')'] from by decide]
  dsimp only
  rw [if_pos (show (')' : Char) = ')' from rfl)]
  rw [if_neg ?hnc]
  case hnc =>
    rw [show (("https://cdn.example/x.png".data ++ [')']).takeWhile (fun c => c ≠ ')')) =
      "https://cdn.example/x.png".data from by decide]
    decide

theorem startsWith_false_of_head {p c : Char} (ps cs : List Char) (h : p ≠ c) :
    startsWith (p :: ps) (c :: cs) = false := by
  simp [startsWith, h]

/-! ## Claim C7 — what replacement does to a matched occurrence -/

/-- C7 as stated fails at a wiki embed with alt text: the occurrence
`![[image.png|pic]]` is rewritten to `![pic](https://cdn.example/x.png)` —
the alt text is preserved but the rest of the matched occurrence is not left
unchanged; substituting only the target inside the wiki syntax would give
`![[https://cdn.example/x.png|pic]]`, which is not what the code produces. -/
theorem claim_C7_counterexample :
    replaceImageReference ⟨"notes/image.png", "image.png", "image"⟩
        "https://cdn.example/x.png" "![[image.png|pic]]" =
      ("![pic](https://cdn.example/x.png)", true) ∧
    ("![pic](https://cdn.example/x.png)" : String) ≠
      "![[https://cdn.example/x.png|pic]]" := by
  exact ⟨by decide, by decide⟩

/-- C7 amended: the rewrite renders every matched occurrence in inline
markdown form `![altText](replacement)`, where `altText` is the regex capture
with one leading `|` removed (the shared callback's `alt.replace(/^\|/, '')`).
For a wiki embed `![[image.png|alt]]` the capture is `|alt`, so the strip
removes exactly the wiki delimiter and the alt text is preserved: the result
is `![alt](url)` (wiki delimiters converted to inline form), and
`![[image.png]]` becomes `![](url)`.  For an inline occurrence
`![alt](notes/image.png)` the surrounding syntax is kept and the target
replaced, but the same strip applies to the alt text itself: the result is
`![stripBar alt](url)`, so alt text is preserved except that an inline alt
starting with `|` loses that leading bar — e.g. `![|x](notes/image.png)`
becomes `![x](url)`.  Stated for every alt text that contains no `]` and no
`!`. -/
theorem claim_C7_amended_alt_preserved (alt : List Char)
    (hrb : ']' ∉ alt) (hbang : '!' ∉ alt) :
    replaceImageReference ⟨"notes/image.png", "image.png", "image"⟩
        "https://cdn.example/x.png"
        (String.mk ("![[image.png|".data ++ alt ++ "]]".data)) =
      (String.mk ("![".data ++ alt ++ "](https://cdn.example/x.png)".data), true) ∧
    replaceImageReference ⟨"notes/image.png", "image.png", "image"⟩
        "https://cdn.example/x.png" "![[image.png]]" =
      ("![](https://cdn.example/x.png)", true) ∧
    replaceImageReference ⟨"notes/image.png", "image.png", "image"⟩
        "https://cdn.example/x.png"
        (String.mk ("![".data ++ alt ++ "](notes/image.png)".data)) =
      (String.mk ("![".data ++ stripBar alt ++
        "](https://cdn.example/x.png)".data), true) ∧
    replaceImageReference ⟨"notes/image.png", "image.png", "image"⟩
        "https://cdn.example/x.png" "![|x](notes/image.png)" =
      ("![x](https://cdn.example/x.png)", true) := by
  have halt : ∀ c ∈ alt, c ≠ ']' := fun c hc he => hrb (he ▸ hc)
  have haltb : ∀ c ∈ alt, c ≠ '!' := fun c hc he => hbang (he ▸ hc)
  have halt2 : ∀ c ∈ stripBar alt, c ≠ ']' :=
    fun c hc => halt c (stripBar_subset c hc)
  have haltb2 : ∀ c ∈ stripBar alt, c ≠ '!' :=
    fun c hc => haltb c (stripBar_subset c hc)
  have hencp : encodeURI "notes/image.png".data = "notes/image.png".data := by decide
  have hencn : encodeURI "image.png".data = "image.png".data := by decide
  have hR : ∀ b : List Char,
      ("![".data ++ b ++ "](https://cdn.example/x.png)".data : List Char) =
      '!' :: '[' :: (b ++ ']' :: '(' :: ("https://cdn.example/x.png".data ++ [')'])) := by
    intro b
    rw [show ("![".data : List Char) = ['!', '['] from by decide,
      show ("](https://cdn.example/x.png)".data : List Char) =
        ']' :: '(' :: ("https://cdn.example/x.png".data ++ [')']) from by decide]
    simp
  have hwR : ∀ b : List Char, (∀ c ∈ b, c ≠ ']') →
      ∀ t, runPass (matchWikiAt t) "https://cdn.example/x.png".data
      ('!' :: '[' :: (b ++ ']' :: '(' :: ("https://cdn.example/x.png".data ++ [')']))) =
      '!' :: '[' :: (b ++ ']' :: '(' :: ("https://cdn.example/x.png".data ++ [')'])) :=
    fun b hb t => runPass_id_of_sound _ [']', ']'] _ _
      (fun s r hm => matchWikiAt_sound_rbrb hm) (not_rbrb_R b hb)
  refine ⟨?_, by decide, ?_, by decide⟩
  · -- wiki embed with alt text
    have hP : ("![[image.png|".data ++ alt ++ "]]".data : List Char) =
        '!' :: '[' :: '[' :: ("image.png|".data ++ (alt ++ [']', ']'])) := by
      rw [show ("![[image.png|".data : List Char) = '!' :: '[' :: '[' :: "image.png|".data
          from by decide,
        show ("]]".data : List Char) = [']', ']'] from by decide]
      simp
    have hm1 : ∀ t, runPass (matchInlineAt t) "https://cdn.example/x.png".data
        ('!' :: '[' :: '[' :: ("image.png|".data ++ (alt ++ [']', ']']))) =
        '!' :: '[' :: '[' :: ("image.png|".data ++ (alt ++ [']', ']'])) :=
      fun t => runPass_id_of_sound _ [']', '('] _ _
        (fun s r hm => matchInlineAt_sound_brlp hm) (not_brlp_P alt halt)
    have hm5 : runPass (matchLooseAt "image.png".data) "https://cdn.example/x.png".data
        ('!' :: '[' :: '[' :: ("image.png|".data ++ (alt ++ [']', ']']))) =
        '!' :: '[' :: '[' :: ("image.png|".data ++ (alt ++ [']', ']'])) :=
      runPass_id_of_sound _ [']', '('] _ _
        (fun s r hm => matchLooseAt_sound_brlp hm) (not_brlp_P alt halt)
    have hw1 : runPass (matchWikiAt "notes/image.png".data) "https://cdn.example/x.png".data
        ('!' :: '[' :: '[' :: ("image.png|".data ++ (alt ++ [']', ']']))) =
        '!' :: '[' :: '[' :: ("image.png|".data ++ (alt ++ [']', ']'])) := by
      refine runPass_id_headfail _ _ ?_ rfl
        (fun d ds hd => matchWikiAt_ne_bang _ ds hd) (no_bang_P_tail alt haltb)
      refine matchWikiAt_none_startfail _ _ ?_
      rw [show ("image.png|".data : List Char) = 'i' :: "mage.png|".data from by decide]
      rw [List.cons_append]
      rw [show ("notes/image.png".data : List Char) = 'n' :: "otes/image.png".data
        from by decide]
      exact startsWith_false_of_head _ _ (by decide)
    have hw2 : runPass (matchWikiAt "image.png".data) "https://cdn.example/x.png".data
        ('!' :: '[' :: '[' :: ("image.png|".data ++ (alt ++ [']', ']']))) =
        mkReplacement "https://cdn.example/x.png".data ('|' :: alt) :=
      runPass_head_match_all _ _ (matchWikiAt_wiki_occurrence alt halt) rfl
    have hmk : mkReplacement "https://cdn.example/x.png".data ('|' :: alt) =
        '!' :: '[' :: (alt ++ ']' :: '(' :: ("https://cdn.example/x.png".data ++ [')'])) := by
      simp only [mkReplacement, stripBar]
    have hpasses : replacePasses "notes/image.png".data "image.png".data "image".data
        "https://cdn.example/x.png".data
        ('!' :: '[' :: '[' :: ("image.png|".data ++ (alt ++ [']', ']']))) =
        '!' :: '[' :: (alt ++ ']' :: '(' :: ("https://cdn.example/x.png".data ++ [')'])) := by
      unfold replacePasses
      dsimp only
      simp only [hm1, hm5, hw1]
      rw [hw2, hmk]
      simp only [hwR alt halt]
    have hne : '!' :: '[' :: (alt ++ ']' :: '(' ::
          ("https://cdn.example/x.png".data ++ [')'])) ≠
        '!' :: '[' :: '[' :: ("image.png|".data ++ (alt ++ [']', ']'])) := by
      apply ne_of_length_ne
      simp only [List.length_cons, List.length_append, List.length_nil]
      omega
    unfold replaceImageReference
    dsimp only
    rw [hP, hpasses, if_neg hne, hR alt]
  · -- inline occurrence
    have hQ : ("![".data ++ alt ++ "](notes/image.png)".data : List Char) =
        '!' :: '[' :: (alt ++ ']' :: '(' :: ("notes/image.png".data ++ [')'])) := by
      rw [show ("![".data : List Char) = ['!', '['] from by decide,
        show ("](notes/image.png)".data : List Char) =
          ']' :: '(' :: ("notes/image.png".data ++ [')']) from by decide]
      simp
    have hq1 : runPass (matchInlineAt "notes/image.png".data)
        "https://cdn.example/x.png".data
        ('!' :: '[' :: (alt ++ ']' :: '(' :: ("notes/image.png".data ++ [')']))) =
        mkReplacement "https://cdn.example/x.png".data alt :=
      runPass_head_match_all _ _
        (matchInlineAt_occurrence "notes/image.png".data alt [] halt) rfl
    have hmk3 : mkReplacement "https://cdn.example/x.png".data alt =
        '!' :: '[' :: (stripBar alt ++ ']' :: '(' ::
          ("https://cdn.example/x.png".data ++ [')'])) := rfl
    have hm2R : runPass (matchInlineAt "image.png".data) "https://cdn.example/x.png".data
        ('!' :: '[' :: (stripBar alt ++ ']' :: '(' ::
          ("https://cdn.example/x.png".data ++ [')']))) =
        '!' :: '[' :: (stripBar alt ++ ']' :: '(' ::
          ("https://cdn.example/x.png".data ++ [')'])) :=
      runPass_id_of_sound _ (']' :: '(' :: ("image.png".data ++ [')'])) _ _
        (fun s r hm => matchInlineAt_sound_target hm)
        (not_brlp_R_name (stripBar alt) halt2)
    have hmpR : runPass (matchInlineAt "notes/image.png".data)
        "https://cdn.example/x.png".data
        ('!' :: '[' :: (stripBar alt ++ ']' :: '(' ::
          ("https://cdn.example/x.png".data ++ [')']))) =
        '!' :: '[' :: (stripBar alt ++ ']' :: '(' ::
          ("https://cdn.example/x.png".data ++ [')'])) :=
      runPass_id_of_sound _ (']' :: '(' :: ("notes/image.png".data ++ [')'])) _ _
        (fun s r hm => matchInlineAt_sound_target hm)
        (not_brlp_R_path (stripBar alt) halt2)
    have hm5R : runPass (matchLooseAt "image.png".data) "https://cdn.example/x.png".data
        ('!' :: '[' :: (stripBar alt ++ ']' :: '(' ::
          ("https://cdn.example/x.png".data ++ [')']))) =
        '!' :: '[' :: (stripBar alt ++ ']' :: '(' ::
          ("https://cdn.example/x.png".data ++ [')'])) :=
      runPass_id_headfail _ _ (matchLooseAt_none_R (stripBar alt) halt2) rfl
        (fun d ds hd => matchLooseAt_ne_bang _ ds hd)
        (no_bang_R_tail (stripBar alt) haltb2)
    have hpasses : replacePasses "notes/image.png".data "image.png".data "image".data
        "https://cdn.example/x.png".data
        ('!' :: '[' :: (alt ++ ']' :: '(' :: ("notes/image.png".data ++ [')']))) =
        '!' :: '[' :: (stripBar alt ++ ']' :: '(' ::
          ("https://cdn.example/x.png".data ++ [')'])) := by
      unfold replacePasses
      dsimp only
      rw [hencp, hencn]
      rw [hq1, hmk3]
      simp only [hm2R, hmpR, hm5R, hwR (stripBar alt) halt2]
    have hlu : ("https://cdn.example/x.png".data : List Char).length = 25 := by decide
    have hlp : ("notes/image.png".data : List Char).length = 15 := by decide
    have hsl := stripBar_length alt
    have hne : '!' :: '[' :: (stripBar alt ++ ']' :: '(' ::
          ("https://cdn.example/x.png".data ++ [')'])) ≠
        '!' :: '[' :: (alt ++ ']' :: '(' :: ("notes/image.png".data ++ [')'])) := by
      apply ne_of_length_ne
      simp only [List.length_cons, List.length_append, List.length_nil]
      omega
    unfold replaceImageReference
    dsimp only
    rw [hQ, hpasses, if_neg hne, hR (stripBar alt)]

/-- Closed instance of the amended C7 at alt text `nice pic`. -/
theorem claim_C7_amended_witness :
    replaceImageReference ⟨"notes/image.png", "image.png", "image"⟩
        "https://cdn.example/x.png"
        (String.mk ("![[image.png|".data ++ "nice pic".data ++ "]]".data)) =
      (String.mk ("![".data ++ "nice pic".data ++
        "](https://cdn.example/x.png)".data), true) :=
  (claim_C7_amended_alt_preserved "nice pic".data (by decide) (by decide)).1

/-! ## Claim C2 — loop freedom of the local-copy step -/

theorem writeMarkedBefore_cons_upload (m : List String) (rest : List Ev) :
    writeMarkedBefore m (.uploadCall :: rest) = writeMarkedBefore m rest := rfl

theorem writeMarkedBefore_append_uploads (m : List String) (l1 l2 : List Ev)
    (h : ∀ e ∈ l1, e = Ev.uploadCall) :
    writeMarkedBefore m (l1 ++ l2) = writeMarkedBefore m l2 := by
  induction l1 with
  | nil => rfl
  | cons e es ih =>
    have he := h e (by simp)
    subst he
    rw [List.cons_append, writeMarkedBefore_cons_upload,
      ih (fun e2 he2 => h e2 (by simp [he2]))]

theorem writeMarkedBefore_no_writes :
    ∀ (l : List Ev) (m : List String), (∀ p, Ev.writeBinary p ∉ l) →
      writeMarkedBefore m l = true
  | [], _, _ => rfl
  | .markCreated p :: rest, m, h =>
    writeMarkedBefore_no_writes rest (p :: m)
      (fun q hq => h q (List.mem_cons_of_mem _ hq))
  | .writeBinary p :: _, _, h => absurd (List.mem_cons_self _ _) (h p)
  | .uploadCall :: rest, m, h =>
    writeMarkedBefore_no_writes rest m (fun q hq => h q (List.mem_cons_of_mem _ hq))
  | .rewriteRef _ _ :: rest, m, h =>
    writeMarkedBefore_no_writes rest m (fun q hq => h q (List.mem_cons_of_mem _ hq))
  | .deleteSource _ :: rest, m, h =>
    writeMarkedBefore_no_writes rest m (fun q hq => h q (List.mem_cons_of_mem _ hq))

theorem uploadEvents_only_uploads (o : Option UploadOutcome) (e : Ev)
    (he : e ∈ (match o with
      | some o2 => List.replicate (uploadCalls o2) Ev.uploadCall
      | none => ([] : List Ev))) : e = Ev.uploadCall := by
  cases o with
  | none => simp at he
  | some o2 => exact List.eq_of_mem_replicate he

theorem rewriteEvents_no_write (u lf : Option String) (fp q : String) :
    Ev.writeBinary q ∉ (match u with
      | some url => Ev.rewriteRef fp url ::
          (match lf with | some lp => [Ev.rewriteRef lp url] | none => [])
      | none =>
          match lf with | some lp => [Ev.rewriteRef fp lp] | none => []) := by
  cases u <;> cases lf <;> simp

theorem deleteEvents_no_write (c1 c2 : Prop) [Decidable c1] [Decidable c2]
    (fp q : String) :
    Ev.writeBinary q ∉
      (if c1 then (if c2 then [Ev.deleteSource fp] else []) else []) := by
  split
  · split <;> simp
  · simp

/-- `handleLocalCopy` emits either nothing or exactly a mark followed by a
write of the same path. -/
theorem handleLocalCopy_events (hashFn : List Nat → String) (s : Settings)
    (f : FileInfo) (env : IntakeEnv) :
    (handleLocalCopy hashFn s f env).2 = [] ∨
    ∃ p, (handleLocalCopy hashFn s f env).2 = [Ev.markCreated p, Ev.writeBinary p] := by
  unfold handleLocalCopy
  cases sanitizeFolderPath s.localCopyFolder with
  | none => exact Or.inl rfl
  | some folder =>
    dsimp only
    split
    · split
      · exact Or.inl rfl
      · exact Or.inr ⟨_, rfl⟩
    · exact Or.inr ⟨_, rfl⟩

/-- The local-copy decision emits either nothing or exactly a mark followed
by a write of the same path. -/
theorem localCopyStep_events (hashFn : List Nat → String) (s : Settings)
    (f : FileInfo) (env : IntakeEnv) :
    (localCopyStep hashFn s f env).2 = [] ∨
    ∃ p, (localCopyStep hashFn s f env).2 = [Ev.markCreated p, Ev.writeBinary p] := by
  unfold localCopyStep
  dsimp only
  split
  · split
    · split
      · exact Or.inl rfl
      · split
        · exact handleLocalCopy_events hashFn s f env
        · exact Or.inl rfl
    · exact Or.inl rfl
  · exact Or.inl rfl

theorem contains_self_cons (p : String) (m : List String) :
    (p :: m).contains p = true := by
  simp

/-- Every binary write in one intake attempt's trace is preceded by a mark of
the same path. -/
theorem intakeBody_writeMarkedBefore (hashFn : List Nat → String) (s : Settings)
    (f : FileInfo) (env : IntakeEnv) (cache : Cache) :
    writeMarkedBefore [] (intakeBody hashFn s f env cache).2.1 = true := by
  unfold intakeBody
  dsimp only
  rw [List.append_assoc, List.append_assoc]
  rw [writeMarkedBefore_append_uploads _ _ _ (fun e he => uploadEvents_only_uploads _ e he)]
  rcases localCopyStep_events hashFn s f env with hce | ⟨p, hce⟩
  · rw [hce, List.nil_append]
    refine writeMarkedBefore_no_writes _ [] ?_
    intro q hq
    rcases List.mem_append.mp hq with h | h
    · exact absurd h (rewriteEvents_no_write _ _ f.path q)
    · exact absurd h (deleteEvents_no_write _ _ f.path q)
  · rw [hce, List.cons_append, List.cons_append, List.nil_append]
    show writeMarkedBefore [] (Ev.markCreated p :: Ev.writeBinary p :: _) = true
    rw [writeMarkedBefore]
    rw [writeMarkedBefore]
    rw [contains_self_cons]
    rw [Bool.true_and]
    refine writeMarkedBefore_no_writes _ [p] ?_
    intro q hq
    rcases List.mem_append.mp hq with h | h
    · exact absurd h (rewriteEvents_no_write _ _ f.path q)
    · exact absurd h (deleteEvents_no_write _ _ f.path q)

theorem processFileCreate_writeMarkedBefore (hashFn : List Nat → String) (s : Settings)
    (f : FileInfo) (env : IntakeEnv) (cache : Cache) :
    writeMarkedBefore [] (processFileCreate hashFn s f env cache).2.1 = true := by
  unfold processFileCreate
  dsimp only
  repeat' split
  all_goals first
    | rfl
    | exact intakeBody_writeMarkedBefore hashFn s f env cache

theorem processFileCreate_loop_guard (hashFn : List Nat → String) (s : Settings)
    (f : FileInfo) (env : IntakeEnv) (cache : Cache)
    (himg : isImageExtension f.extension = true)
    (hfresh : env.now - (if f.ctime = 0 then env.now else f.ctime) ≤ 5000)
    (hin : env.pluginCreatedFiles.contains (normalizePath f.path) = true) :
    processFileCreate hashFn s f env cache =
      (.skippedPluginCreated, [], cache, none, none) := by
  unfold processFileCreate
  rw [if_neg (by simp [himg])]
  dsimp only
  rw [if_neg (Nat.not_lt.mpr hfresh), if_pos hin]

/-- C2: every destination path written by the local-copy step is registered
via `markPluginCreatedPath` before the binary write is issued (in every
intake trace, each `writeBinary p` is preceded by a `markCreated p`); and a
`processFileCreate` invocation for a fresh image file whose normalized path
sits in the `pluginCreatedFiles` set returns at the loop guard with no
upload, copy, or rewrite activity at all. -/
theorem claim_C2_loop_freedom :
    (∀ (hashFn : List Nat → String) (s : Settings) (f : FileInfo) (env : IntakeEnv)
        (cache : Cache),
      writeMarkedBefore [] (processFileCreate hashFn s f env cache).2.1 = true) ∧
    (∀ (hashFn : List Nat → String) (s : Settings) (f : FileInfo) (env : IntakeEnv)
        (cache : Cache),
      isImageExtension f.extension = true →
      env.now - (if f.ctime = 0 then env.now else f.ctime) ≤ 5000 →
      env.pluginCreatedFiles.contains (normalizePath f.path) = true →
      processFileCreate hashFn s f env cache =
        (.skippedPluginCreated, [], cache, none, none)) :=
  ⟨fun hashFn s f env cache => processFileCreate_writeMarkedBefore hashFn s f env cache,
   fun hashFn s f env cache himg hfresh hin =>
     processFileCreate_loop_guard hashFn s f env cache himg hfresh hin⟩

def loopGuardSettings : Settings :=
  { autoUploadOnFileAdd := true, cloudName := "demo", uploadPreset := "preset",
    apiKey := "", apiSecret := "", allowStoreApiSecret := false,
    maxAutoUploadSizeMB := none, cacheFilePath := "cache.json",
    localCopyEnabled := true, localCopyFolder := "assets",
    deleteSourceAfterUpload := false }

def loopGuardFile : FileInfo :=
  { path := "assets/pic.png", name := "pic.png", basename := "pic",
    extension := "png", ctime := 1000 }

def loopGuardEnv : IntakeEnv :=
  { now := 2000, pluginCreatedFiles := ["assets/pic.png"], uploadingPaths := [],
    activeContent := some "![x](assets/pic.png)", bytes := [1, 2, 3],
    uploaderResult := some "https://cdn/u.png", uploadedAt := "t",
    dupInDest := none, destExists := false, existingIsFile := false,
    existingHash := "", timestamp := 7 }

/-- Closed instance of C2: a file the plugin just wrote is skipped at the
loop guard with an empty event trace. -/
theorem claim_C2_loop_freedom_witness :
    processFileCreate (fun _ => "hh") loopGuardSettings loopGuardFile loopGuardEnv [] =
      (.skippedPluginCreated, [], [], none, none) :=
  claim_C2_loop_freedom.2 (fun _ => "hh") loopGuardSettings loopGuardFile loopGuardEnv []
    (by decide) (by decide) (by decide)

/-! ## Claim C4 — the lenient-fallback local copy -/

/-- Settings with an invalid (rooted) local-copy folder. -/
def invalidFolderSettings : Settings :=
  { autoUploadOnFileAdd := false, cloudName := "", uploadPreset := "",
    apiKey := "", apiSecret := "", allowStoreApiSecret := false,
    maxAutoUploadSizeMB := none, cacheFilePath := "",
    localCopyEnabled := true, localCopyFolder := "/abs/path",
    deleteSourceAfterUpload := false }

def invalidFolderFile : FileInfo :=
  { path := "pics/img.png", name := "img.png", basename := "img",
    extension := "png", ctime := 1000 }

def invalidFolderEnv : IntakeEnv :=
  { now := 2000, pluginCreatedFiles := [], uploadingPaths := [],
    activeContent := some "![x](pics/img.png)", bytes := [1, 2, 3],
    uploaderResult := none, uploadedAt := "t",
    dupInDest := none, destExists := false, existingIsFile := false,
    existingHash := "", timestamp := 7 }

/-- C4 names a fallback the code does not deliver: when `localCopyFolder`
fails sanitization, `processFileCreate` computes a lenient normalization
(`"/abs/path"` becomes the non-empty `"abs/path"`) and proceeds into the
local-copy branch — but `handleLocalCopy` re-runs the strict sanitizer on
the raw setting, throws, is caught, and returns `undefined`: no local copy
is ever written.  The intake itself is not aborted, but the copy is
dropped, contradicting the code's own comment "so we still attempt the copy
instead of silently skipping". -/
theorem claim_C4_fallback_copy_never_written :
    sanitizeFolderPath "/abs/path" = none ∧
    lenientFolderFallback "/abs/path" = "abs/path" ∧
    handleLocalCopy (fun _ => "hh") invalidFolderSettings invalidFolderFile
      invalidFolderEnv = (none, []) ∧
    localCopyStep (fun _ => "hh") invalidFolderSettings invalidFolderFile
      invalidFolderEnv = (none, []) := by
  refine ⟨by decide, by decide, by decide, by decide⟩

end ImgUpload
